import Mathlib

/-! Codecrypt `hashfile.cpp`: streaming multi-digest creation and verification.

A shallow embedding of `src/src/hashfile.cpp`.

* `std::map<std::string, T>` is `smap T`: a list of entries whose keys are strictly
  increasing, with ordered insertion (`smap.insert` is `m[k] = v`).
* The digest interface `hash_proc` (declared outside `hashfile.cpp`) is a record of
  the four virtual methods over a private state; the digest classes of the other
  headers are parameters (`hashlib`).
* The function-local `static` processors of `fill_hashmap` live in `statics`; a
  `hash_proc*` is a `procid` naming one of them.  Every virtual call is recorded in a
  call history next to the processor states.
* `std::istream` is `istream`: the bytes the source still holds, how the source ends
  (end of file or device fault), and the `eofbit`/`failbit`/`badbit` flags.
* Bytes are natural numbers (below 256); `uint64_t` is a natural number reduced
  modulo `2 ^ 64` where it can overflow.
-/

namespace Codecrypt

/-! ## `std::map<std::string, T>` -/

/-- The order of `std::string` keys (`std::less<std::string>`): lexicographic on the
characters. -/
def key_lt (a b : String) : Prop := a.data < b.data

instance key_lt_decidable (a b : String) : Decidable (key_lt a b) := by
  unfold key_lt; infer_instance

theorem key_lt_trans {a b c : String} (h1 : key_lt a b) (h2 : key_lt b c) : key_lt a c :=
  lt_trans (α := List Char) h1 h2

theorem key_lt_irrefl (a : String) : ¬ key_lt a a := lt_irrefl (α := List Char) a.data

theorem key_lt_of_not {a b : String} (h1 : ¬ key_lt a b) (h2 : a ≠ b) : key_lt b a := by
  have h3 : a.data ≠ b.data := fun h => h2 (String.ext h)
  exact lt_of_le_of_ne (not_lt.1 h1) (Ne.symm h3)

/-- Keys of an entry list, in list order. -/
def keysOf {α : Type} (es : List (String × α)) : List String := es.map Prod.fst

/-- Ordered insertion into an entry list: a new key goes to its place in the order, an
existing key has its value replaced. -/
def insertEntry {α : Type} (k : String) (v : α) : List (String × α) → List (String × α)
  | [] => [(k, v)]
  | e :: t =>
    if key_lt k e.1 then (k, v) :: e :: t
    else if k = e.1 then (k, v) :: t
    else e :: insertEntry k v t

/-- First value stored under a key. -/
def lookupEntry {α : Type} (k : String) : List (String × α) → Option α
  | [] => none
  | e :: t => if k = e.1 then some e.2 else lookupEntry k t

theorem keysOf_insertEntry_mem {α : Type} (k : String) (v : α) (es : List (String × α))
    (x : String) : x ∈ keysOf (insertEntry k v es) ↔ x = k ∨ x ∈ keysOf es := by
  induction es with
  | nil => simp [insertEntry, keysOf]
  | cons e t ih =>
    unfold insertEntry
    by_cases h1 : key_lt k e.1
    · simp [h1, keysOf]
    · by_cases h2 : k = e.1
      · rw [if_neg h1, if_pos h2]
        simp [keysOf, h2]
      · simp only [h1, h2, if_false]
        have ih2 : x ∈ keysOf (insertEntry k v t) ↔ x = k ∨ x ∈ keysOf t := ih
        simp only [keysOf, List.map_cons, List.mem_cons] at ih2 ⊢
        rw [ih2]
        tauto

theorem insertEntry_sorted {α : Type} (k : String) (v : α) (es : List (String × α))
    (h : (keysOf es).Pairwise key_lt) : (keysOf (insertEntry k v es)).Pairwise key_lt := by
  induction es with
  | nil => simp [insertEntry, keysOf]
  | cons e t ih =>
    have ht : (keysOf t).Pairwise key_lt := (List.pairwise_cons.1 h).2
    have he : ∀ x ∈ keysOf t, key_lt e.1 x := (List.pairwise_cons.1 h).1
    unfold insertEntry
    by_cases h1 : key_lt k e.1
    · simp only [h1, if_true]
      refine List.pairwise_cons.2 ⟨?_, h⟩
      intro x hx
      rcases List.mem_cons.1 hx with hx | hx
      · exact hx ▸ h1
      · exact key_lt_trans h1 (he x hx)
    · by_cases h2 : k = e.1
      · rw [if_neg h1, if_pos h2]
        refine List.pairwise_cons.2 ⟨?_, ht⟩
        intro x hx
        exact h2 ▸ he x hx
      · simp only [h1, h2, if_false]
        refine List.pairwise_cons.2 ⟨?_, ih ht⟩
        intro x hx
        rcases (keysOf_insertEntry_mem k v t x).1 hx with hx | hx
        · rw [hx]
          exact key_lt_of_not h1 h2
        · exact he x hx

/-- A `std::map<std::string, T>`: entries in strictly increasing key order. -/
structure smap (α : Type) where
  entries : List (String × α)
  sorted : (keysOf entries).Pairwise key_lt

namespace smap

variable {α : Type}

/-- A default-constructed (or cleared) map. -/
def empty : smap α := ⟨[], List.Pairwise.nil⟩

/-- `m.clear()`. -/
def clear (_m : smap α) : smap α := empty

/-- `m[k] = v`. -/
def insert (m : smap α) (k : String) (v : α) : smap α :=
  ⟨insertEntry k v m.entries, insertEntry_sorted k v m.entries m.sorted⟩

/-- The value `m[k]` of a key that is present (`none` when `m.count(k)` is 0). -/
def find? (m : smap α) (k : String) : Option α := lookupEntry k m.entries

/-- `m.count(k)`. -/
def count (m : smap α) (k : String) : Nat := if (m.find? k).isSome then 1 else 0

/-- `m.empty()`. -/
def isEmpty (m : smap α) : Bool := m.entries.isEmpty

/-- Keys in iteration order. -/
def keys (m : smap α) : List String := keysOf m.entries

/-- `m.size()`. -/
def size (m : smap α) : Nat := m.entries.length

end smap

/-! ## Byte vectors -/

/-- `v.resize(n)` on a `std::vector<byte>`: truncate, or pad with zero bytes. -/
def resize (v : List Nat) (n : Nat) : List Nat := v.take n ++ List.replicate (n - v.length) 0

/-- The effect of a read into `&buf[0]`: the bytes read overwrite the front of the
buffer, the rest of the buffer keeps its old content. -/
def store (buf got : List Nat) : List Nat := got ++ buf.drop got.length

/-! ## Digest processors -/

/-- The abstract class `hash_proc`: the four virtual methods, as functions of the
private state `σ` of the object they are called on. -/
structure hash_proc (σ : Type) where
  size : σ → Nat
  init : σ → σ
  eat : σ → List Nat → σ
  finish : σ → List Nat × σ

/-- The loop of `size64proc::finish`: `r[i] = s & 0xff; s >>= 8;` for `i` in `is`. -/
def size64_finish_loop (is : List Nat) (r : List Nat) (s : Nat) : List Nat × Nat :=
  is.foldl (fun (x : List Nat × Nat) i => (x.1.set i (x.2 % 256), x.2 / 256)) (r, s)

/-- The class `size64proc`; its state is the `uint64_t` counter `s`. -/
def size64proc : hash_proc Nat where
  size := fun _ => 8
  init := fun _ => 0
  eat := fun s a => (s + a.length) % 2 ^ 64
  finish := fun s => size64_finish_loop (List.range 8) (resize [] 8) s

/-- The digest classes of `rmd_hash.h`, `tiger_hash.h`, `sha_hash.h` and `cube_hash.h`.
They are defined outside `hashfile.cpp` and are parameters here: each is some
implementation of `hash_proc` over some state. -/
structure hashlib where
  rmd128_state : Type
  tiger192_state : Type
  sha256_state : Type
  sha512_state : Type
  cube512_state : Type
  rmd128proc : hash_proc rmd128_state
  tiger192proc : hash_proc tiger192_state
  sha256proc : hash_proc sha256_state
  sha512proc : hash_proc sha512_state
  cube512proc : hash_proc cube512_state

/-- The function-local `static` objects of `fill_hashmap`, by variable name.  A
`hash_proc*` held in a `hashmap` is one of these. -/
inductive procid where
  | rh | th | sh256 | sh512 | c512 | sh
  deriving DecidableEq, Repr

/-- State type of each static object. -/
def hashlib.state (L : hashlib) : procid → Type
  | .rh => L.rmd128_state
  | .th => L.tiger192_state
  | .sh256 => L.sha256_state
  | .sh512 => L.sha512_state
  | .c512 => L.cube512_state
  | .sh => Nat

/-- Class (virtual method table) of each static object, as declared in `fill_hashmap`. -/
def hashlib.cls (L : hashlib) : (p : procid) → hash_proc (L.state p)
  | .rh => L.rmd128proc
  | .th => L.tiger192proc
  | .sh256 => L.sha256proc
  | .sh512 => L.sha512proc
  | .c512 => L.cube512proc
  | .sh => size64proc

/-- A virtual call made on a processor; `finish` is recorded with what it returned. -/
inductive call where
  | init
  | eat (a : List Nat)
  | finish (r : List Nat)
  deriving DecidableEq, Repr

/-- The process-wide state behind `fill_hashmap`: the state of every static processor,
and the history of the virtual calls made on them so far. -/
structure statics (L : hashlib) where
  st : (p : procid) → L.state p
  calls : List (procid × call)

namespace statics

variable {L : hashlib}

/-- `p->init()`. -/
def init (w : statics L) (p : procid) : statics L :=
  { st := Function.update w.st p ((L.cls p).init (w.st p))
    calls := w.calls ++ [(p, call.init)] }

/-- `p->eat(a)`. -/
def eat (w : statics L) (p : procid) (a : List Nat) : statics L :=
  { st := Function.update w.st p ((L.cls p).eat (w.st p) a)
    calls := w.calls ++ [(p, call.eat a)] }

/-- `p->finish()`: the returned vector and the state after the call. -/
def finish (w : statics L) (p : procid) : List Nat × statics L :=
  let r := (L.cls p).finish (w.st p)
  (r.1, { st := Function.update w.st p r.2
          calls := w.calls ++ [(p, call.finish r.1)] })

end statics

/-- `typedef map<string, hash_proc*> hashmap`. -/
abbrev hashmap := smap procid

/-- `hashes_t`, the type of `hashfile::hashes`: algorithm name to stored digest. -/
abbrev hashes_t := smap (List Nat)

/-- `fill_hashmap`; the parameter `have_cryptopp` is the build flag `HAVE_CRYPTOPP==1`. -/
def fill_hashmap (have_cryptopp : Bool) (t : hashmap) : hashmap :=
  let t :=
    if have_cryptopp then
      (((t.insert "RIPEMD128" procid.rh).insert "TIGER192" procid.th).insert
        "SHA256" procid.sh256).insert "SHA512" procid.sh512
    else t
  (t.insert "CUBE512" procid.c512).insert "SIZE64" procid.sh

/-! ## Input streams -/

/-- A `std::istream`, as far as `read`, `operator bool`, `eof` and `gcount` show it.
`content` are the bytes the source has not delivered yet; when they run out the source
reports end of file, or, if `faulty`, a device error.  `nreads` counts the calls of
`read` made on the stream. -/
structure istream where
  content : List Nat
  faulty : Bool
  eofbit : Bool
  failbit : Bool
  badbit : Bool
  gcount : Nat
  nreads : Nat
  deriving DecidableEq, Repr

namespace istream

/-- `in.good()`. -/
def good (s : istream) : Bool := !s.eofbit && !s.failbit && !s.badbit

/-- `in.fail()`; a stream tested as a condition (`if (in)`) is `!in.fail()`. -/
def fail (s : istream) : Bool := s.failbit || s.badbit

/-- `in.eof()`. -/
def eof (s : istream) : Bool := s.eofbit

/-- `in.read(dst, n)`: the stream after the call and the bytes stored to `dst`.
A stream that is not `good()` stores nothing and sets `failbit`.  Otherwise `n` bytes are
extracted if the source has them; if it runs out first, what is left is extracted and
`eofbit | failbit` is set (end of file) or `badbit` is set (device error). -/
def read (s : istream) (n : Nat) : istream × List Nat :=
  if s.good = false then
    ({ s with failbit := true, gcount := 0, nreads := s.nreads + 1 }, [])
  else if n ≤ s.content.length then
    ({ s with content := s.content.drop n, gcount := n, nreads := s.nreads + 1 },
      s.content.take n)
  else if s.faulty then
    ({ s with content := [], badbit := true, gcount := 0, nreads := s.nreads + 1 },
      s.content)
  else
    ({ s with content := [], eofbit := true, failbit := true,
              gcount := s.content.length, nreads := s.nreads + 1 }, s.content)

/-- A stream that can be read cleanly to its end: no flag is set and the source ends
with end of file. -/
def clean (s : istream) : Bool := s.good && !s.faulty

/-- A fresh stream over the bytes `S`. -/
def ofBytes (S : List Nat) : istream :=
  { content := S, faulty := false, eofbit := false, failbit := false, badbit := false,
    gcount := 0, nreads := 0 }

end istream

theorem read_decreases (s : istream) (h : (s.read 8192).1.fail = false) :
    (s.read 8192).1.content.length < s.content.length := by
  unfold istream.read at h ⊢
  by_cases h1 : s.good = false
  · simp [h1, istream.fail] at h
  · by_cases h2 : 8192 ≤ s.content.length
    · rw [if_neg h1, if_pos h2]
      simp only [List.length_drop]
      omega
    · by_cases h3 : s.faulty = true
      · simp [h1, h2, h3, istream.fail] at h
      · simp [h1, h2, h3, istream.fail] at h

/-! ## `hashfile::create` -/

/-- What a call of `hashfile::create` leaves behind: the returned `bool`, the member
`hashes`, the static processors and the stream. -/
structure create_result (L : hashlib) where
  ret : Bool
  hashes : hashes_t
  procs : statics L
  ins : istream

/-- The loop `for (;;)` of `hashfile::create`. -/
def create_loop (L : hashlib) (hm : hashmap) (hashes : hashes_t) (w : statics L)
    (buf : List Nat) (ins : istream) : create_result L :=
  let r := ins.read 8192
  let buf1 := store buf r.2
  if _h : r.1.fail = false then
    create_loop L hm hashes (hm.entries.foldl (fun w i => w.eat i.2 buf1) w) buf1 r.1
  else if r.1.eof then
    let buf2 := resize buf1 r.1.gcount
    let s := hm.entries.foldl (fun (s : hashes_t × statics L) i =>
      let f := (s.2.eat i.2 buf2).finish i.2
      (s.1.insert i.1 f.1, f.2)) (hashes, w)
    { ret := true, hashes := s.1, procs := s.2, ins := r.1 }
  else
    { ret := false, hashes := hashes, procs := w, ins := r.1 }
termination_by ins.content.length
decreasing_by exact read_decreases ins (by assumption)

/-- `hashfile::create`, called on a `hashfile` whose member `hashes` is `hashes`. -/
def create (L : hashlib) (have_cryptopp : Bool) (hashes : hashes_t) (w : statics L)
    (ins : istream) : create_result L :=
  let hashes := hashes.clear
  let hm := fill_hashmap have_cryptopp smap.empty
  let w := hm.entries.foldl (fun w i => w.init i.2) w
  let buf := resize [] 8192
  create_loop L hm hashes w buf ins

/-! ## `hashfile::verify` -/

/-- What a call of `hashfile::verify` leaves behind: the returned `int`, the member
`hashes`, the static processors, the stream, the lines written with `err`, and the
last values of the locals `ok` and `failed` (0 if the call returned before declaring
them). -/
structure verify_result (L : hashlib) where
  ret : Nat
  hashes : hashes_t
  procs : statics L
  ins : istream
  log : List String
  ok : Nat
  failed : Nat

/-- The loop `for (;;)` of `hashfile::verify`: `true` when it is left by `break`, `false`
when it is left by `return 1`. -/
def verify_loop (L : hashlib) (hm : hashmap) (w : statics L) (buf : List Nat)
    (ins : istream) : Bool × statics L × istream :=
  let r := ins.read 8192
  let buf1 := store buf r.2
  if _h : r.1.fail = false then
    verify_loop L hm (hm.entries.foldl (fun w i => w.eat i.2 buf1) w) buf1 r.1
  else if r.1.eof then
    let buf2 := resize buf1 r.1.gcount
    (true, hm.entries.foldl (fun w i => w.eat i.2 buf2) w, r.1)
  else
    (false, w, r.1)
termination_by ins.content.length
decreasing_by exact read_decreases ins (by assumption)

/-- Modelled from the spec: the macro `err` of `iohelpers.h` (not part of
`hashfile.cpp`) writes one line to the reporting sink, "a line-oriented diagnostic
channel receiving one message per verified/skipped algorithm plus an optional
no-verifiable-digest notice".  The sink is the list of the lines written so far. -/
def err (log : List String) (line : String) : List String := log ++ [line]

/-- The locals of the comparison loop of `hashfile::verify`. -/
structure verify_state (L : hashlib) where
  procs : statics L
  ok : Nat
  failed : Nat
  log : List String

/-- One round of the comparison loop of `hashfile::verify`, for the entry `i` of
`hashes`.  The guarded lookup `if (!hm.count(k)) ... continue; ... hm[k]` is a case
distinction on `hm.find? k`. -/
def verify_step (L : hashlib) (hm : hashmap) (s : verify_state L) (i : String × List Nat) :
    verify_state L :=
  match hm.find? i.1 with
  | none =>
    { s with log := err s.log ("hash verification: :-/ " ++ i.1 ++ " not supported") }
  | some p =>
    let f := s.procs.finish p
    if i.2 = f.1 then
      { procs := f.2, ok := s.ok + 1, failed := s.failed,
        log := err s.log ("hash verification: ;-) " ++ i.1 ++ " is GOOD") }
    else
      { procs := f.2, ok := s.ok, failed := s.failed + 1,
        log := err s.log ("hash verification: :-( " ++ i.1 ++ " is BAD") }

/-- The first loop of `hashfile::verify`, which builds `hm`: the entries of `hm_all`
whose name is a key of `hashes`.  The guarded lookup `if (hm_all.count(k)) ... hm_all[k]`
is a case distinction on `hm_all.find? k`. -/
def intersect (hm_all : hashmap) (es : List (String × List Nat)) : hashmap :=
  es.foldl (fun hm i =>
    match hm_all.find? i.1 with
    | some p => hm.insert i.1 p
    | none => hm) smap.empty

/-- The end of `hashfile::verify`, from the declaration of `ok` and `failed` on: the
comparison loop and the decision. -/
def verify_compare (L : hashlib) (hm : hashmap) (hashes : hashes_t) (w : statics L)
    (ins : istream) : verify_result L :=
  let s := hashes.entries.foldl (verify_step L hm)
    { procs := w, ok := 0, failed := 0, log := [] }
  { ret := if s.failed ≠ 0 then 3 else if s.ok ≠ 0 then 0 else 2,
    hashes := hashes, procs := s.procs, ins := ins, log := s.log, ok := s.ok,
    failed := s.failed }

/-- `hashfile::verify`, called on a `hashfile` whose member `hashes` is `hashes`. -/
def verify (L : hashlib) (have_cryptopp : Bool) (hashes : hashes_t) (w : statics L)
    (ins : istream) : verify_result L :=
  let hm_all := fill_hashmap have_cryptopp smap.empty
  let hm := intersect hm_all hashes.entries
  if hm.isEmpty then
    { ret := 2, hashes := hashes, procs := w, ins := ins,
      log := err [] "notice: no verifiable hash found in hashfile", ok := 0, failed := 0 }
  else
    let w := hm.entries.foldl (fun w i => w.init i.2) w
    let buf := resize [] 8192
    let r := verify_loop L hm w buf ins
    if r.1 = false then
      { ret := 1, hashes := hashes, procs := r.2.1, ins := r.2.2, log := [], ok := 0,
        failed := 0 }
    else
      verify_compare L hm hashes r.2.1 r.2.2

/-! ## Chunks -/

/-- The full 8192-byte chunks of a byte sequence, in order. -/
def full_chunks (S : List Nat) : List (List Nat) :=
  if 8192 ≤ S.length then S.take 8192 :: full_chunks (S.drop 8192) else []
termination_by S.length
decreasing_by simp only [List.length_drop]; omega

/-- What is left of a byte sequence after its full 8192-byte chunks: fewer than 8192
bytes, possibly none. -/
def last_chunk (S : List Nat) : List Nat :=
  if 8192 ≤ S.length then last_chunk (S.drop 8192) else S
termination_by S.length
decreasing_by simp only [List.length_drop]; omega

/-- `eat(a)` on every processor of a `hashmap`, in iteration order. -/
def eat_all {L : hashlib} (es : List (String × procid)) (w : statics L) (a : List Nat) :
    statics L :=
  es.foldl (fun w i => w.eat i.2 a) w

/-- `eat_all` for each of a list of chunks, in order. -/
def eat_chunks {L : hashlib} (es : List (String × procid)) (w : statics L)
    (cs : List (List Nat)) : statics L :=
  cs.foldl (eat_all es) w

/-- The last round of the loop of `hashfile::create`: every processor eats the last
chunk, is finished, and its output is stored under its name. -/
def finish_all {L : hashlib} (es : List (String × procid)) (a : List Nat)
    (s : hashes_t × statics L) : hashes_t × statics L :=
  es.foldl (fun (s : hashes_t × statics L) i =>
    let f := (s.2.eat i.2 a).finish i.2
    (s.1.insert i.1 f.1, f.2)) s

/-- The stream a clean stream becomes once it has been read to its end in 8192-byte
reads. -/
def istream.at_eof (s : istream) : istream :=
  { s with content := [], eofbit := true, failbit := true,
           gcount := s.content.length % 8192,
           nreads := s.nreads + s.content.length / 8192 + 1 }

/-- The stream after a read that delivered a full chunk. -/
def istream.after_full (s : istream) : istream :=
  { s with content := s.content.drop 8192, gcount := 8192, nreads := s.nreads + 1 }

/-- The stream after a read that met the end of the file. -/
def istream.after_last (s : istream) : istream :=
  { s with content := [], eofbit := true, failbit := true, gcount := s.content.length,
           nreads := s.nreads + 1 }

/-- The reads of the stream fail with a hard error (neither a full chunk nor end of
file) after `k` full 8192-byte chunks. -/
def istream.fails_after : Nat → istream → Bool
  | 0, s => (s.read 8192).1.fail && !(s.read 8192).1.eof
  | k + 1, s => !(s.read 8192).1.fail && istream.fails_after k (s.read 8192).1

/-- State of a processor after `eat` on each of the chunks `cs`, in order. -/
def hash_proc.feed {σ : Type} (P : hash_proc σ) (s : σ) (cs : List (List Nat)) : σ :=
  cs.foldl P.eat s

/-- The buffers the read loops hand to `eat` for a stream that delivers `S`: the full
chunks, then the last chunk. -/
def chunks (S : List Nat) : List (List Nat) := full_chunks S ++ [last_chunk S]

/-- What `finish()` returns on a processor that is in state `s`, gets `init()` and then
eats the chunks of `S`. -/
def hash_proc.digest {σ : Type} (P : hash_proc σ) (s : σ) (S : List Nat) : List Nat :=
  (P.finish (P.feed (P.init s) (chunks S))).1

/-- What `p->finish()` would return in the state `w`. -/
def statics.out {L : hashlib} (w : statics L) (p : procid) : List Nat :=
  ((L.cls p).finish (w.st p)).1

/-- `init()` on every processor of a `hashmap`, in iteration order. -/
def init_all {L : hashlib} (es : List (String × procid)) (w : statics L) : statics L :=
  es.foldl (fun w i => w.init i.2) w

/-- The registry: the `hashmap` that `fill_hashmap` makes of an empty one. -/
def registry (have_cryptopp : Bool) : hashmap := fill_hashmap have_cryptopp smap.empty

/-- The processors that a `hashmap` holds for a list of names, in the order of the names. -/
def found (hm : hashmap) (ks : List String) : List procid := ks.filterMap hm.find?

/-- `finish()` on each processor of a list, in order, dropping what it returns. -/
def finish_found {L : hashlib} (ps : List procid) (w : statics L) : statics L :=
  ps.foldl (fun w p => (w.finish p).2) w

/-- The line of `hashfile::verify` for a name that is not supported. -/
def unsupported_line (n : String) : String := "hash verification: :-/ " ++ n ++ " not supported"

/-- The line of `hashfile::verify` for a digest that matches. -/
def good_line (n : String) : String := "hash verification: ;-) " ++ n ++ " is GOOD"

/-- The line of `hashfile::verify` for a digest that does not match. -/
def bad_line (n : String) : String := "hash verification: :-( " ++ n ++ " is BAD"

/-- The line the comparison loop writes for the entry `i` of the record, when `out p`
is what `finish()` returns on processor `p`. -/
def report_line (hm : hashmap) (out : procid → List Nat) (i : String × List Nat) : String :=
  match hm.find? i.1 with
  | none => unsupported_line i.1
  | some p => if i.2 = out p then good_line i.1 else bad_line i.1

/-- The entry `i` of the record is supported and its stored digest equals the output. -/
def is_good (hm : hashmap) (out : procid → List Nat) (i : String × List Nat) : Bool :=
  match hm.find? i.1 with
  | none => false
  | some p => decide (i.2 = out p)

/-- The entry `i` of the record is supported and its stored digest differs from the
output. -/
def is_bad (hm : hashmap) (out : procid → List Nat) (i : String × List Nat) : Bool :=
  match hm.find? i.1 with
  | none => false
  | some p => decide (i.2 ≠ out p)

/-- The digest of `S` by processor `p`, when `p` starts in its state in `w`: what
`finish()` returns after `init()` and after eating the chunks of `S`. -/
def dig {L : hashlib} (w : statics L) (S : List Nat) (p : procid) : List Nat :=
  (L.cls p).digest (w.st p) S

/-- The static processors after the read loop of `verify` on a clean stream over `S`:
the processors of `hm` have been through `init()` and have eaten the chunks of `S`. -/
def fed_all {L : hashlib} (hm : hashmap) (w : statics L) (S : List Nat) : statics L :=
  eat_all hm.entries (eat_chunks hm.entries (init_all hm.entries w) (full_chunks S))
    (last_chunk S)

/-- The notice of `hashfile::verify` when no name of the record is supported. -/
def notice_line : String := "notice: no verifiable hash found in hashfile"

/-- Every digest class of the external headers resets in `init()`: the state after
`init()` does not depend on the state before it. -/
def hashlib.resets (L : hashlib) : Prop :=
  (∀ s t, L.rmd128proc.init s = L.rmd128proc.init t) ∧
  (∀ s t, L.tiger192proc.init s = L.tiger192proc.init t) ∧
  (∀ s t, L.sha256proc.init s = L.sha256proc.init t) ∧
  (∀ s t, L.sha512proc.init s = L.sha512proc.init t) ∧
  (∀ s t, L.cube512proc.init s = L.cube512proc.init t)

/-- A stand-in digest class for examples: the Fletcher-16 checksum.  Its state is the
pair of running sums modulo 255. -/
def fletcher16proc : hash_proc (Nat × Nat) where
  size := fun _ => 2
  init := fun _ => (0, 0)
  eat := fun s a => a.foldl (fun x b => ((x.1 + b) % 255, (x.2 + (x.1 + b) % 255) % 255)) s
  finish := fun s => ([s.2, s.1], s)

/-- A digest library for examples: every external class is `fletcher16proc`. -/
def demo_lib : hashlib where
  rmd128_state := Nat × Nat
  tiger192_state := Nat × Nat
  sha256_state := Nat × Nat
  sha512_state := Nat × Nat
  cube512_state := Nat × Nat
  rmd128proc := fletcher16proc
  tiger192proc := fletcher16proc
  sha256proc := fletcher16proc
  sha512proc := fletcher16proc
  cube512proc := fletcher16proc

/-- Static processors of `demo_lib` before any call. -/
def demo_statics : statics demo_lib where
  st := fun p =>
    match p with
    | procid.rh => ((0, 0) : Nat × Nat)
    | procid.th => ((0, 0) : Nat × Nat)
    | procid.sh256 => ((0, 0) : Nat × Nat)
    | procid.sh512 => ((0, 0) : Nat × Nat)
    | procid.c512 => ((0, 0) : Nat × Nat)
    | procid.sh => (0 : Nat)
  calls := []

/-- The calls made on processor `p` among a history of calls, in order. -/
def calls_on (p : procid) (cs : List (procid × call)) : List call :=
  (cs.filter (fun c => decide (c.1 = p))).map Prod.snd

/-- The calls one processor sees in one `create` or `verify` over the bytes `S`, when
`finish()` returns `out`: `init()`, `eat` of each chunk, `finish()`. -/
def session (S : List Nat) (out : List Nat) : List call :=
  call.init :: ((chunks S).map call.eat ++ [call.finish out])

/-- The calls of every processor of `ps` in turn, processor `q` getting the calls `g q`. -/
def calls_each (ps : List procid) (g : procid → List call) : List (procid × call) :=
  ps.flatMap (fun q => (g q).map (fun c => (q, c)))

/-- The calls a history `after` has gained over the history `before`. -/
def new_calls (before after : List (procid × call)) : List (procid × call) :=
  after.drop before.length

/-- The 8 bytes of a number, least significant first: byte `i` is `(n / 256 ^ i) % 256`. -/
def le64 (n : Nat) : List Nat := (List.range 8).map (fun i => n / 256 ^ i % 256)

/-- The three bytes `01 02 03` as a fresh stream. -/
def demo_in : istream := istream.ofBytes [1, 2, 3]

/-- A record with a correct SIZE64 entry for three bytes and a name no build supports. -/
def demo_record : hashes_t :=
  (smap.empty.insert "SIZE64" [3, 0, 0, 0, 0, 0, 0, 0]).insert "WHIRLPOOL" [7]

theorem filter_keys_sorted {α : Type} (p : String × α → Bool) (es : List (String × α))
    (h : (keysOf es).Pairwise key_lt) : (keysOf (es.filter p)).Pairwise key_lt :=
  List.Pairwise.sublist ((List.filter_sublist es).map Prod.fst) h

/-- The record restricted to the names that `hm_all` supports. -/
def restrict (hm_all : hashmap) (R : hashes_t) : hashes_t :=
  ⟨R.entries.filter (fun i => (hm_all.find? i.1).isSome),
    filter_keys_sorted _ R.entries R.sorted⟩

/-- A record whose only name no build supports. -/
def unknown_record : hashes_t := smap.empty.insert "WHIRLPOOL" [7]

/-- A stream over three bytes whose source fails with a device error instead of
reporting the end of the file. -/
def broken_in : istream :=
  { content := [1, 2, 3], faulty := true, eofbit := false, failbit := false, badbit := false,
    gcount := 0, nreads := 0 }

/-- Pointers of an entry list, in list order. -/
def ptrsOf (es : List (String × procid)) : List procid := es.map Prod.snd

/-- The number that a list of bytes spells, least significant byte first. -/
def from_le (bs : List Nat) : Nat := bs.foldr (fun b acc => b + 256 * acc) 0

/-- A stream of `2 ^ 64` zero bytes. -/
def huge_in : istream := istream.ofBytes (List.replicate (2 ^ 64) 0)

/-- The bytes `01 02 04` as a fresh stream. -/
def demo_in_changed : istream := istream.ofBytes [1, 2, 4]

/-- A call is a call of `finish`. -/
def call.is_finish : call → Bool
  | call.finish _ => true
  | _ => false

/-- The number of `finish` calls made on processor `p` in a history of calls. -/
def finish_count (p : procid) (cs : List (procid × call)) : Nat :=
  ((calls_on p cs).filter call.is_finish).length

/-! ## Facts about `smap` -/

theorem key_lt_asymm {a b : String} (h : key_lt a b) : ¬ key_lt b a :=
  fun h2 => key_lt_irrefl a (key_lt_trans h h2)

theorem key_lt_ne {a b : String} (h : key_lt a b) : a ≠ b :=
  fun h2 => key_lt_irrefl b (h2 ▸ h)

theorem lookupEntry_insertEntry {α : Type} (k x : String) (v : α) (es : List (String × α)) :
    lookupEntry x (insertEntry k v es) = if x = k then some v else lookupEntry x es := by
  induction es with
  | nil => simp [insertEntry, lookupEntry]
  | cons e t ih =>
    unfold insertEntry
    by_cases h1 : key_lt k e.1
    · rw [if_pos h1]
      simp [lookupEntry]
    · rw [if_neg h1]
      by_cases h2 : k = e.1
      · rw [if_pos h2]
        by_cases h3 : x = k
        · simp [lookupEntry, h3]
        · have h4 : ¬ x = e.1 := h2 ▸ h3
          simp [lookupEntry, h3, h4]
      · rw [if_neg h2]
        by_cases h3 : x = e.1
        · have h4 : ¬ e.1 = k := fun h => h2 h.symm
          simp [lookupEntry, h3, h4]
        · simp [lookupEntry, h3, ih]

theorem lookupEntry_eq_none_iff {α : Type} (es : List (String × α)) (k : String) :
    lookupEntry k es = none ↔ k ∉ keysOf es := by
  induction es with
  | nil => simp [lookupEntry, keysOf]
  | cons e t ih =>
    by_cases h : k = e.1
    · simp [lookupEntry, keysOf, h]
    · have ih2 : lookupEntry k t = none ↔ k ∉ keysOf t := ih
      simp only [lookupEntry, if_neg h, ih2, keysOf, List.map_cons, List.mem_cons, not_or]
      tauto

theorem lookupEntry_eq_some_iff {α : Type} (es : List (String × α))
    (hs : (keysOf es).Pairwise key_lt) (k : String) (v : α) :
    lookupEntry k es = some v ↔ (k, v) ∈ es := by
  induction es with
  | nil => simp [lookupEntry]
  | cons e t ih =>
    have ht : (keysOf t).Pairwise key_lt := (List.pairwise_cons.1 hs).2
    have he : ∀ x ∈ keysOf t, key_lt e.1 x := (List.pairwise_cons.1 hs).1
    by_cases h : k = e.1
    · have hnot : (k, v) ∉ t := by
        intro hm
        have : k ∈ keysOf t := List.mem_map.2 ⟨(k, v), hm, rfl⟩
        exact key_lt_irrefl k (h ▸ he k this)
      simp only [lookupEntry, if_pos h, List.mem_cons, hnot, or_false, Option.some.injEq]
      constructor
      · intro h2
        exact Prod.ext h h2.symm
      · intro h2
        rw [← h2]
    · have hne : (k, v) ≠ e := fun h2 => h (h2 ▸ rfl)
      simp only [lookupEntry, if_neg h, List.mem_cons, hne, false_or]
      exact ih ht

theorem insertEntry_append {α : Type} (k : String) (v : α) (es : List (String × α))
    (h : ∀ x ∈ keysOf es, key_lt x k) : insertEntry k v es = es ++ [(k, v)] := by
  induction es with
  | nil => rfl
  | cons e t ih =>
    have h1 : key_lt e.1 k := h e.1 (by simp [keysOf])
    have h2 : ∀ x ∈ keysOf t, key_lt x k := fun x hx => h x (by
      simp only [keysOf, List.map_cons, List.mem_cons]
      exact Or.inr hx)
    unfold insertEntry
    rw [if_neg (key_lt_asymm h1), if_neg (fun h3 => key_lt_ne h1 h3.symm), ih h2]
    rfl

theorem smap.ext_entries {α : Type} {a b : smap α} (h : a.entries = b.entries) : a = b := by
  cases a
  cases b
  cases h
  rfl

/-! ## Facts about calls on the static processors -/

theorem fold_st {L : hashlib} (g : statics L → procid → statics L)
    (m : (p : procid) → L.state p → L.state p)
    (hg : ∀ w p, (g w p).st = Function.update w.st p (m p (w.st p)))
    (es : List (String × procid)) (hn : (ptrsOf es).Nodup) (w : statics L) (q : procid) :
    (es.foldl (fun w i => g w i.2) w).st q
      = if q ∈ ptrsOf es then m q (w.st q) else w.st q := by
  induction es generalizing w with
  | nil => simp [ptrsOf]
  | cons i t ih =>
    have hn2 : (ptrsOf t).Nodup := (List.nodup_cons.1 hn).2
    have hi : i.2 ∉ ptrsOf t := (List.nodup_cons.1 hn).1
    rw [List.foldl_cons, ih hn2, hg]
    by_cases hq : q = i.2
    · subst hq
      have hmem : i.2 ∈ ptrsOf (i :: t) := by simp [ptrsOf]
      rw [if_neg hi, if_pos hmem, Function.update_same]
    · have hmem : q ∈ ptrsOf (i :: t) ↔ q ∈ ptrsOf t := by simp [ptrsOf, hq]
      rw [Function.update_noteq hq]
      simp only [hmem]

theorem fold_calls {L : hashlib} (g : statics L → procid → statics L) (c : call)
    (hg : ∀ w p, (g w p).calls = w.calls ++ [(p, c)])
    (es : List (String × procid)) (w : statics L) :
    (es.foldl (fun w i => g w i.2) w).calls = w.calls ++ (ptrsOf es).map (fun p => (p, c)) := by
  induction es generalizing w with
  | nil => simp [ptrsOf]
  | cons i t ih =>
    rw [List.foldl_cons, ih, hg]
    simp [ptrsOf]

/-! ## The read loops -/

theorem full_chunks_ge (S : List Nat) (h : 8192 ≤ S.length) :
    full_chunks S = S.take 8192 :: full_chunks (S.drop 8192) := by
  rw [full_chunks, if_pos h]

theorem full_chunks_lt (S : List Nat) (h : ¬ 8192 ≤ S.length) : full_chunks S = [] := by
  rw [full_chunks, if_neg h]

theorem last_chunk_ge (S : List Nat) (h : 8192 ≤ S.length) :
    last_chunk S = last_chunk (S.drop 8192) := by
  rw [last_chunk, if_pos h]

theorem last_chunk_lt (S : List Nat) (h : ¬ 8192 ≤ S.length) : last_chunk S = S := by
  rw [last_chunk, if_neg h]

theorem read_clean_full (s : istream) (hc : s.clean = true) (h : 8192 ≤ s.content.length) :
    s.read 8192 = (s.after_full, s.content.take 8192) := by
  have hg : s.good = true := by
    simp only [istream.clean, Bool.and_eq_true] at hc
    exact hc.1
  unfold istream.read
  rw [if_neg (by simp [hg]), if_pos h]
  rfl

theorem after_full_clean (s : istream) (hc : s.clean = true) : s.after_full.clean = true := by
  simpa [istream.clean, istream.good, istream.after_full] using hc

theorem after_full_fail (s : istream) (hc : s.clean = true) : s.after_full.fail = false := by
  simp only [istream.clean, istream.good, Bool.and_eq_true, Bool.not_eq_true'] at hc
  simp [istream.fail, istream.after_full, hc.1.1.2, hc.1.2]

theorem after_full_at_eof (s : istream) (h : 8192 ≤ s.content.length) :
    s.after_full.at_eof = s.at_eof := by
  have e1 : (s.content.length - 8192) % 8192 = s.content.length % 8192 := by omega
  have e2 : s.nreads + 1 + (s.content.length - 8192) / 8192 + 1
      = s.nreads + s.content.length / 8192 + 1 := by omega
  simp only [istream.at_eof, istream.after_full, List.length_drop, e1, e2]

theorem after_last_at_eof (s : istream) (h : ¬ 8192 ≤ s.content.length) :
    s.after_last = s.at_eof := by
  have e1 : s.content.length % 8192 = s.content.length := by omega
  have e2 : s.content.length / 8192 = 0 := by omega
  simp only [istream.at_eof, istream.after_last, e1, e2, Nat.add_zero]

theorem read_clean_last (s : istream) (hc : s.clean = true) (h : ¬ 8192 ≤ s.content.length) :
    s.read 8192 = (s.after_last, s.content) := by
  simp only [istream.clean, Bool.and_eq_true, Bool.not_eq_true'] at hc
  unfold istream.read
  rw [if_neg (by simp [hc.1]), if_neg h, if_neg (by simp [hc.2])]
  rfl

theorem store_full (buf got : List Nat) (hb : buf.length = 8192) (hg : got.length = 8192) :
    store buf got = got := by
  unfold store
  rw [List.drop_of_length_le (by omega), List.append_nil]

theorem store_length (buf got : List Nat) (hb : buf.length = 8192) (hg : got.length ≤ 8192) :
    (store buf got).length = 8192 := by
  unfold store
  simp only [List.length_append, List.length_drop]
  omega

theorem resize_store (buf got : List Nat) (hb : buf.length = 8192) (hg : got.length ≤ 8192) :
    resize (store buf got) got.length = got := by
  have hl := store_length buf got hb hg
  unfold resize
  rw [hl]
  have h0 : got.length - 8192 = 0 := by omega
  rw [h0]
  unfold store
  simp

theorem resize_nil_length (n : Nat) : (resize [] n).length = n := by
  simp [resize]

theorem verify_loop_clean (L : hashlib) (hm : hashmap) :
    ∀ (n : Nat) (ins : istream) (w : statics L) (buf : List Nat),
      ins.content.length = n → ins.clean = true → buf.length = 8192 →
      verify_loop L hm w buf ins
        = (true, eat_all hm.entries (eat_chunks hm.entries w (full_chunks ins.content))
                   (last_chunk ins.content), ins.at_eof) := by
  intro n
  induction n using Nat.strong_induction_on with
  | _ n ih =>
    intro ins w buf hlen hc hb
    rw [verify_loop]
    by_cases h : 8192 ≤ ins.content.length
    · have hr := read_clean_full ins hc h
      have htake : (ins.content.take 8192).length = 8192 := by
        rw [List.length_take]; omega
      simp only [hr, store_full buf _ hb htake]
      rw [dif_pos (after_full_fail ins hc)]
      have hlen2 : ins.after_full.content.length = n - 8192 := by
        simp only [istream.after_full, List.length_drop]; omega
      rw [ih (n - 8192) (by omega) _ _ _ hlen2 (after_full_clean ins hc) htake]
      rw [full_chunks_ge _ h, last_chunk_ge _ h, after_full_at_eof ins h]
      rfl
    · have hr := read_clean_last ins hc h
      simp only [hr]
      have hfail : ¬ ins.after_last.fail = false := by
        simp [istream.fail, istream.after_last]
      have heof : ins.after_last.eof = true := rfl
      have hgc : ins.after_last.gcount = ins.content.length := rfl
      rw [dif_neg hfail, if_pos heof, hgc]
      rw [resize_store buf _ hb (by omega), full_chunks_lt _ h, last_chunk_lt _ h,
        after_last_at_eof ins h]
      rfl

theorem create_loop_clean (L : hashlib) (hm : hashmap) (hashes : hashes_t) :
    ∀ (n : Nat) (ins : istream) (w : statics L) (buf : List Nat),
      ins.content.length = n → ins.clean = true → buf.length = 8192 →
      create_loop L hm hashes w buf ins
        = { ret := true
            hashes := (finish_all hm.entries (last_chunk ins.content)
              (hashes, eat_chunks hm.entries w (full_chunks ins.content))).1
            procs := (finish_all hm.entries (last_chunk ins.content)
              (hashes, eat_chunks hm.entries w (full_chunks ins.content))).2
            ins := ins.at_eof } := by
  intro n
  induction n using Nat.strong_induction_on with
  | _ n ih =>
    intro ins w buf hlen hc hb
    rw [create_loop]
    by_cases h : 8192 ≤ ins.content.length
    · have hr := read_clean_full ins hc h
      have htake : (ins.content.take 8192).length = 8192 := by
        rw [List.length_take]; omega
      simp only [hr, store_full buf _ hb htake]
      rw [dif_pos (after_full_fail ins hc)]
      have hlen2 : ins.after_full.content.length = n - 8192 := by
        simp only [istream.after_full, List.length_drop]; omega
      rw [ih (n - 8192) (by omega) _ _ _ hlen2 (after_full_clean ins hc) htake]
      rw [full_chunks_ge _ h, last_chunk_ge _ h, after_full_at_eof ins h]
      rfl
    · have hr := read_clean_last ins hc h
      simp only [hr]
      have hfail : ¬ ins.after_last.fail = false := by
        simp [istream.fail, istream.after_last]
      have heof : ins.after_last.eof = true := rfl
      have hgc : ins.after_last.gcount = ins.content.length := rfl
      rw [dif_neg hfail, if_pos heof, hgc]
      rw [resize_store buf _ hb (by omega), full_chunks_lt _ h, last_chunk_lt _ h,
        after_last_at_eof ins h]
      rfl

theorem verify_loop_fails (L : hashlib) (hm : hashmap) :
    ∀ (k : Nat) (ins : istream) (w : statics L) (buf : List Nat),
      ins.fails_after k = true →
      ∃ cs s, verify_loop L hm w buf ins = (false, eat_chunks hm.entries w cs, s) := by
  intro k
  induction k with
  | zero =>
    intro ins w buf hf
    simp only [istream.fails_after, Bool.and_eq_true, Bool.not_eq_true'] at hf
    refine ⟨[], (ins.read 8192).1, ?_⟩
    rw [verify_loop]
    have h1 : ¬ (ins.read 8192).1.fail = false := by simp [hf.1]
    have h2 : ¬ (ins.read 8192).1.eof = true := by simp [hf.2]
    simp only [dif_neg h1, if_neg h2]
    rfl
  | succ k ih =>
    intro ins w buf hf
    simp only [istream.fails_after, Bool.and_eq_true, Bool.not_eq_true'] at hf
    obtain ⟨cs, s, h⟩ := ih (ins.read 8192).1
      (hm.entries.foldl (fun w i => w.eat i.2 (store buf (ins.read 8192).2)) w)
      (store buf (ins.read 8192).2) hf.2
    refine ⟨store buf (ins.read 8192).2 :: cs, s, ?_⟩
    rw [verify_loop]
    simp only [dif_pos hf.1]
    rw [h]
    rfl

theorem verify_loop_false (L : hashlib) (hm : hashmap) :
    ∀ (n : Nat) (ins : istream) (w : statics L) (buf : List Nat),
      ins.content.length = n → (verify_loop L hm w buf ins).1 = false →
      ∃ k, ins.fails_after k = true := by
  intro n
  induction n using Nat.strong_induction_on with
  | _ n ih =>
    intro ins w buf hlen hv
    rw [verify_loop] at hv
    by_cases h1 : (ins.read 8192).1.fail = false
    · simp only [dif_pos h1] at hv
      obtain ⟨k, hk⟩ := ih _ (hlen ▸ read_decreases ins h1) _ _ _ rfl hv
      exact ⟨k + 1, by simp [istream.fails_after, h1, hk]⟩
    · by_cases h2 : (ins.read 8192).1.eof = true
      · simp [dif_neg h1, if_pos h2] at hv
      · exact ⟨0, by simpa [istream.fails_after] using And.intro h1 h2⟩

theorem create_loop_fails (L : hashlib) (hm : hashmap) (hashes : hashes_t) :
    ∀ (k : Nat) (ins : istream) (w : statics L) (buf : List Nat),
      ins.fails_after k = true →
      ∃ cs s, create_loop L hm hashes w buf ins
        = { ret := false, hashes := hashes, procs := eat_chunks hm.entries w cs, ins := s } := by
  intro k
  induction k with
  | zero =>
    intro ins w buf hf
    simp only [istream.fails_after, Bool.and_eq_true, Bool.not_eq_true'] at hf
    refine ⟨[], (ins.read 8192).1, ?_⟩
    rw [create_loop]
    have h1 : ¬ (ins.read 8192).1.fail = false := by simp [hf.1]
    have h2 : ¬ (ins.read 8192).1.eof = true := by simp [hf.2]
    simp only [dif_neg h1, if_neg h2]
    rfl
  | succ k ih =>
    intro ins w buf hf
    simp only [istream.fails_after, Bool.and_eq_true, Bool.not_eq_true'] at hf
    obtain ⟨cs, s, h⟩ := ih (ins.read 8192).1
      (hm.entries.foldl (fun w i => w.eat i.2 (store buf (ins.read 8192).2)) w)
      (store buf (ins.read 8192).2) hf.2
    refine ⟨store buf (ins.read 8192).2 :: cs, s, ?_⟩
    rw [create_loop]
    simp only [dif_pos hf.1]
    rw [h]
    rfl

theorem eat_all_st {L : hashlib} (es : List (String × procid)) (hn : (ptrsOf es).Nodup)
    (w : statics L) (a : List Nat) (q : procid) :
    (eat_all es w a).st q = if q ∈ ptrsOf es then (L.cls q).eat (w.st q) a else w.st q :=
  fold_st (fun w p => w.eat p a) (fun p s => (L.cls p).eat s a) (fun _ _ => rfl) es hn w q

theorem eat_all_calls {L : hashlib} (es : List (String × procid)) (w : statics L)
    (a : List Nat) :
    (eat_all es w a).calls = w.calls ++ (ptrsOf es).map (fun p => (p, call.eat a)) :=
  fold_calls (fun w p => w.eat p a) (call.eat a) (fun _ _ => rfl) es w

theorem init_all_st {L : hashlib} (es : List (String × procid)) (hn : (ptrsOf es).Nodup)
    (w : statics L) (q : procid) :
    (init_all es w).st q = if q ∈ ptrsOf es then (L.cls q).init (w.st q) else w.st q :=
  fold_st (fun w p => w.init p) (fun p s => (L.cls p).init s) (fun _ _ => rfl) es hn w q

theorem init_all_calls {L : hashlib} (es : List (String × procid)) (w : statics L) :
    (init_all es w).calls = w.calls ++ (ptrsOf es).map (fun p => (p, call.init)) :=
  fold_calls (fun w p => w.init p) call.init (fun _ _ => rfl) es w

theorem eat_chunks_st {L : hashlib} (es : List (String × procid)) (hn : (ptrsOf es).Nodup)
    (cs : List (List Nat)) (w : statics L) (q : procid) :
    (eat_chunks es w cs).st q
      = if q ∈ ptrsOf es then (L.cls q).feed (w.st q) cs else w.st q := by
  induction cs generalizing w with
  | nil => simp [eat_chunks, hash_proc.feed]
  | cons c t ih =>
    have h1 : eat_chunks es w (c :: t) = eat_chunks es (eat_all es w c) t := rfl
    rw [h1, ih, eat_all_st es hn]
    by_cases hq : q ∈ ptrsOf es
    · simp only [if_pos hq]
      rfl
    · simp only [if_neg hq]

theorem eat_chunks_calls {L : hashlib} (es : List (String × procid))
    (cs : List (List Nat)) (w : statics L) :
    (eat_chunks es w cs).calls
      = w.calls ++ cs.flatMap (fun c => (ptrsOf es).map (fun p => (p, call.eat c))) := by
  induction cs generalizing w with
  | nil => simp [eat_chunks]
  | cons c t ih =>
    have h1 : eat_chunks es w (c :: t) = eat_chunks es (eat_all es w c) t := rfl
    rw [h1, ih, eat_all_calls]
    simp

theorem feed_append {σ : Type} (P : hash_proc σ) (s : σ) (cs : List (List Nat))
    (a : List Nat) : P.feed s (cs ++ [a]) = P.eat (P.feed s cs) a := by
  simp [hash_proc.feed, List.foldl_append]

/-! ## The last round of `create` -/

theorem finish_all_entries {L : hashlib} (a : List Nat) (es : List (String × procid))
    (hn : (ptrsOf es).Nodup) (h : hashes_t) (w : statics L)
    (hs : (keysOf h.entries ++ keysOf es).Pairwise key_lt) :
    (finish_all es a (h, w)).1.entries
      = h.entries ++ es.map (fun i =>
          (i.1, ((L.cls i.2).finish ((L.cls i.2).eat (w.st i.2) a)).1)) := by
  induction es generalizing h w with
  | nil => simp [finish_all]
  | cons i t ih =>
    have hn2 : (ptrsOf t).Nodup := (List.nodup_cons.1 hn).2
    have hi : i.2 ∉ ptrsOf t := (List.nodup_cons.1 hn).1
    have hs1 := List.pairwise_append.1 hs
    have hlt : ∀ x ∈ keysOf h.entries, key_lt x i.1 := fun x hx =>
      hs1.2.2 x hx i.1 (by simp [keysOf])
    have hunf : finish_all (i :: t) a (h, w)
        = finish_all t a (h.insert i.1 ((w.eat i.2 a).finish i.2).1,
            ((w.eat i.2 a).finish i.2).2) := rfl
    have hent : (h.insert i.1 ((w.eat i.2 a).finish i.2).1).entries
        = h.entries ++ [(i.1, ((w.eat i.2 a).finish i.2).1)] :=
      insertEntry_append _ _ _ hlt
    have hs2 : (keysOf (h.insert i.1 ((w.eat i.2 a).finish i.2).1).entries
        ++ keysOf t).Pairwise key_lt := by
      rw [hent]
      simpa [keysOf] using hs
    rw [hunf, ih hn2 _ _ hs2, hent]
    have hval : ((w.eat i.2 a).finish i.2).1
        = ((L.cls i.2).finish ((L.cls i.2).eat (w.st i.2) a)).1 := by
      simp [statics.finish, statics.eat]
    have hrest : ∀ j ∈ t, ((w.eat i.2 a).finish i.2).2.st j.2 = w.st j.2 := by
      intro j hj
      have hne : j.2 ≠ i.2 := fun he => hi (he ▸ List.mem_map.2 ⟨j, hj, rfl⟩)
      simp [statics.finish, statics.eat, Function.update_noteq hne]
    rw [hval]
    simp only [List.map_cons, List.append_assoc, List.singleton_append]
    congr 2
    apply List.map_congr_left
    intro j hj
    rw [hrest j hj]

theorem registry_entries (have_cryptopp : Bool) :
    (registry have_cryptopp).entries
      = if have_cryptopp then
          [("CUBE512", procid.c512), ("RIPEMD128", procid.rh), ("SHA256", procid.sh256),
           ("SHA512", procid.sh512), ("SIZE64", procid.sh), ("TIGER192", procid.th)]
        else [("CUBE512", procid.c512), ("SIZE64", procid.sh)] := by
  cases have_cryptopp <;> decide

theorem registry_ptrs_nodup (have_cryptopp : Bool) :
    (ptrsOf (registry have_cryptopp).entries).Nodup := by
  rw [registry_entries]
  cases have_cryptopp <;> decide

theorem create_clean (L : hashlib) (have_cryptopp : Bool) (hashes : hashes_t)
    (w : statics L) (ins : istream) (hc : ins.clean = true) :
    (create L have_cryptopp hashes w ins).ret = true ∧
    (create L have_cryptopp hashes w ins).hashes.entries
      = (registry have_cryptopp).entries.map (fun i =>
          (i.1, (L.cls i.2).digest (w.st i.2) ins.content)) := by
  have hn := registry_ptrs_nodup have_cryptopp
  have hloop := create_loop_clean L (registry have_cryptopp) hashes.clear
    ins.content.length ins (init_all (registry have_cryptopp).entries w) (resize [] 8192) rfl hc
    (resize_nil_length 8192)
  have hcreate : create L have_cryptopp hashes w ins
      = create_loop L (registry have_cryptopp) hashes.clear
          (init_all (registry have_cryptopp).entries w) (resize [] 8192) ins := rfl
  rw [hcreate, hloop]
  refine ⟨rfl, ?_⟩
  simp only
  rw [finish_all_entries _ _ hn _ _ (by
    simpa [smap.clear, smap.empty, keysOf] using (registry have_cryptopp).sorted)]
  simp only [smap.clear, smap.empty, List.nil_append]
  apply List.map_congr_left
  intro i hi
  have hmem : i.2 ∈ ptrsOf (registry have_cryptopp).entries := List.mem_map.2 ⟨i, hi, rfl⟩
  rw [eat_chunks_st _ hn, if_pos hmem, init_all_st _ hn, if_pos hmem]
  simp only [hash_proc.digest, chunks, feed_append]

theorem report_congr (hm : hashmap) (out out2 : procid → List Nat)
    (t : List (String × List Nat)) (h : ∀ q ∈ found hm (keysOf t), out q = out2 q) :
    t.filter (is_good hm out) = t.filter (is_good hm out2) ∧
    t.filter (is_bad hm out) = t.filter (is_bad hm out2) ∧
    t.map (report_line hm out) = t.map (report_line hm out2) := by
  have key : ∀ j ∈ t, ∀ q, hm.find? j.1 = some q → out q = out2 q := by
    intro j hj q hq
    exact h q (List.mem_filterMap.2 ⟨j.1, List.mem_map.2 ⟨j, hj, rfl⟩, hq⟩)
  refine ⟨List.filter_congr ?_, List.filter_congr ?_, List.map_congr_left ?_⟩
  · intro j hj
    unfold is_good
    cases hf : hm.find? j.1 with
    | none => rfl
    | some q => simp only [key j hj q hf]
  · intro j hj
    unfold is_bad
    cases hf : hm.find? j.1 with
    | none => rfl
    | some q => simp only [key j hj q hf]
  · intro j hj
    unfold report_line
    cases hf : hm.find? j.1 with
    | none => rfl
    | some q => simp only [key j hj q hf]

theorem finish_out_other {L : hashlib} (w : statics L) (p q : procid) (h : q ≠ p) :
    (w.finish p).2.out q = w.out q := by
  simp [statics.out, statics.finish, Function.update_noteq h]

theorem verify_fold {L : hashlib} (hm : hashmap) (es : List (String × List Nat))
    (s : verify_state L) (hn : (found hm (keysOf es)).Nodup) :
    es.foldl (verify_step L hm) s
      = { procs := finish_found (found hm (keysOf es)) s.procs
          ok := s.ok + (es.filter (is_good hm s.procs.out)).length
          failed := s.failed + (es.filter (is_bad hm s.procs.out)).length
          log := s.log ++ es.map (report_line hm s.procs.out) } := by
  induction es generalizing s with
  | nil => simp [found, keysOf, finish_found]
  | cons i t ih =>
    rw [List.foldl_cons]
    cases hf : hm.find? i.1 with
    | none =>
      have hfound : found hm (keysOf (i :: t)) = found hm (keysOf t) := by
        simp [found, keysOf, hf]
      rw [hfound] at hn
      have hstep : verify_step L hm s i
          = { s with log := s.log ++ [unsupported_line i.1] } := by
        simp only [verify_step, hf]
        rfl
      rw [hstep, ih _ hn, hfound]
      simp [is_good, is_bad, report_line, hf]
    | some p =>
      have hfound : found hm (keysOf (i :: t)) = p :: found hm (keysOf t) := by
        simp [found, keysOf, hf]
      rw [hfound] at hn
      have hp : p ∉ found hm (keysOf t) := (List.nodup_cons.1 hn).1
      have hn2 := (List.nodup_cons.1 hn).2
      have hagree : ∀ q ∈ found hm (keysOf t), (s.procs.finish p).2.out q = s.procs.out q :=
        fun q hq => finish_out_other s.procs p q (fun h => hp (h ▸ hq))
      obtain ⟨c1, c2, c3⟩ := report_congr hm _ _ t hagree
      by_cases hv : i.2 = s.procs.out p
      · have hstep : verify_step L hm s i
            = { procs := (s.procs.finish p).2, ok := s.ok + 1, failed := s.failed,
                log := s.log ++ [good_line i.1] } := by
          have hv2 : i.2 = (s.procs.finish p).1 := hv
          simp only [verify_step, hf, if_pos hv2]
          rfl
        rw [hstep, ih _ hn2, hfound]
        simp only [c1, c2, c3]
        simp [is_good, is_bad, report_line, hf, hv, finish_found]
        omega
      · have hstep : verify_step L hm s i
            = { procs := (s.procs.finish p).2, ok := s.ok, failed := s.failed + 1,
                log := s.log ++ [bad_line i.1] } := by
          have hv2 : ¬ i.2 = (s.procs.finish p).1 := hv
          simp only [verify_step, hf, if_neg hv2]
          rfl
        rw [hstep, ih _ hn2, hfound]
        simp only [c1, c2, c3]
        simp [is_good, is_bad, report_line, hf, hv, finish_found]
        omega

/-! ## The working set of `verify` -/

theorem smap.find?_insert {α : Type} (m : smap α) (k x : String) (v : α) :
    (m.insert k v).find? x = if x = k then some v else m.find? x :=
  lookupEntry_insertEntry k x v m.entries

theorem smap.find?_empty {α : Type} (x : String) : (smap.empty : smap α).find? x = none := rfl

theorem smap.find?_eq_some_iff {α : Type} (m : smap α) (k : String) (v : α) :
    m.find? k = some v ↔ (k, v) ∈ m.entries :=
  lookupEntry_eq_some_iff m.entries m.sorted k v

theorem intersect_fold_find (hm_all : hashmap) (es : List (String × List Nat))
    (acc : hashmap) (hacc : ∀ n p, acc.find? n = some p → hm_all.find? n = some p)
    (n : String) (p : procid) :
    (es.foldl (fun hm i =>
        match hm_all.find? i.1 with
        | some p => hm.insert i.1 p
        | none => hm) acc).find? n = some p
      ↔ (n ∈ keysOf es ∧ hm_all.find? n = some p) ∨ acc.find? n = some p := by
  induction es generalizing acc with
  | nil => simp [keysOf]
  | cons i t ih =>
    rw [List.foldl_cons]
    cases hi : hm_all.find? i.1 with
    | none =>
      simp only
      rw [ih acc hacc]
      have hk : n ∈ keysOf (i :: t) ↔ n = i.1 ∨ n ∈ keysOf t := by simp [keysOf]
      rw [hk]
      constructor
      · rintro (⟨h1, h2⟩ | h)
        · exact Or.inl ⟨Or.inr h1, h2⟩
        · exact Or.inr h
      · rintro (⟨h1 | h1, h2⟩ | h)
        · rw [h1, hi] at h2
          cases h2
        · exact Or.inl ⟨h1, h2⟩
        · exact Or.inr h
    | some p0 =>
      simp only
      have hacc2 : ∀ n p, (acc.insert i.1 p0).find? n = some p → hm_all.find? n = some p := by
        intro n p h
        rw [smap.find?_insert] at h
        by_cases hn : n = i.1
        · rw [if_pos hn] at h
          rw [hn, hi]
          exact h
        · rw [if_neg hn] at h
          exact hacc n p h
      rw [ih _ hacc2, smap.find?_insert]
      have hk : n ∈ keysOf (i :: t) ↔ n = i.1 ∨ n ∈ keysOf t := by simp [keysOf]
      rw [hk]
      by_cases hn : n = i.1
      · rw [if_pos hn]
        constructor
        · rintro (⟨_, h2⟩ | h)
          · exact Or.inl ⟨Or.inl hn, h2⟩
          · refine Or.inl ⟨Or.inl hn, ?_⟩
            rw [hn, hi]
            exact h
        · rintro (⟨_, h2⟩ | h)
          · right
            rw [hn, hi] at h2
            exact h2
          · right
            have := hacc n p h
            rw [hn, hi] at this
            exact this
      · rw [if_neg hn]
        constructor
        · rintro (⟨h1, h2⟩ | h)
          · exact Or.inl ⟨Or.inr h1, h2⟩
          · exact Or.inr h
        · rintro (⟨h1 | h1, h2⟩ | h)
          · exact absurd h1 hn
          · exact Or.inl ⟨h1, h2⟩
          · exact Or.inr h

theorem intersect_find_iff (hm_all : hashmap) (es : List (String × List Nat))
    (n : String) (p : procid) :
    (intersect hm_all es).find? n = some p ↔ n ∈ keysOf es ∧ hm_all.find? n = some p := by
  unfold intersect
  rw [intersect_fold_find hm_all es smap.empty (fun n p h => by cases h)]
  simp [smap.find?_empty]

theorem intersect_find_of_mem (hm_all : hashmap) (es : List (String × List Nat))
    (i : String × List Nat) (hi : i ∈ es) :
    (intersect hm_all es).find? i.1 = hm_all.find? i.1 := by
  have hk : i.1 ∈ keysOf es := List.mem_map.2 ⟨i, hi, rfl⟩
  cases h : hm_all.find? i.1 with
  | some p => exact (intersect_find_iff hm_all es i.1 p).2 ⟨hk, h⟩
  | none =>
    cases h2 : (intersect hm_all es).find? i.1 with
    | none => rfl
    | some q =>
      have := ((intersect_find_iff hm_all es i.1 q).1 h2).2
      rw [h] at this
      cases this

theorem find?_inj_of_nodup (m : hashmap) (hn : (ptrsOf m.entries).Nodup) (a b : String)
    (p : procid) (ha : m.find? a = some p) (hb : m.find? b = some p) : a = b := by
  have h1 := (smap.find?_eq_some_iff m a p).1 ha
  have h2 := (smap.find?_eq_some_iff m b p).1 hb
  have := List.inj_on_of_nodup_map hn h1 h2 rfl
  exact congrArg Prod.fst this

theorem intersect_ptrs_nodup (hm_all : hashmap) (hn : (ptrsOf hm_all.entries).Nodup)
    (es : List (String × List Nat)) : (ptrsOf (intersect hm_all es).entries).Nodup := by
  have hkeys : (keysOf (intersect hm_all es).entries).Nodup :=
    (intersect hm_all es).sorted.imp (fun h => key_lt_ne h)
  refine List.Nodup.map_on ?_ (List.Nodup.of_map Prod.fst hkeys)
  intro x hx y hy hxy
  have h1 := (smap.find?_eq_some_iff _ x.1 x.2).2 hx
  have h2 := (smap.find?_eq_some_iff _ y.1 y.2).2 hy
  have h3 := ((intersect_find_iff hm_all es _ _).1 h1).2
  have h4 := ((intersect_find_iff hm_all es _ _).1 h2).2
  rw [← hxy] at h4
  exact Prod.ext (find?_inj_of_nodup hm_all hn _ _ _ h3 h4) hxy

theorem found_nodup (hm : hashmap) (hn : (ptrsOf hm.entries).Nodup) (ks : List String)
    (hk : ks.Nodup) : (found hm ks).Nodup := by
  refine List.Nodup.filterMap ?_ hk
  intro a b p ha hb
  exact find?_inj_of_nodup hm hn a b p ha hb

theorem mem_ptrs_iff (hm : hashmap) (q : procid) :
    q ∈ ptrsOf hm.entries ↔ ∃ n, hm.find? n = some q := by
  constructor
  · intro h
    obtain ⟨i, hi, hq⟩ := List.mem_map.1 h
    exact ⟨i.1, (smap.find?_eq_some_iff hm i.1 q).2 (hq ▸ hi)⟩
  · rintro ⟨n, h⟩
    exact List.mem_map.2 ⟨(n, q), (smap.find?_eq_some_iff hm n q).1 h, rfl⟩

theorem found_subset_ptrs (hm : hashmap) (ks : List String) (q : procid)
    (h : q ∈ found hm ks) : q ∈ ptrsOf hm.entries := by
  obtain ⟨n, _, hn⟩ := List.mem_filterMap.1 h
  exact (mem_ptrs_iff hm q).2 ⟨n, hn⟩

theorem fed_all_out {L : hashlib} (hm : hashmap) (hn : (ptrsOf hm.entries).Nodup)
    (w : statics L) (S : List Nat) (q : procid) (hq : q ∈ ptrsOf hm.entries) :
    (fed_all hm w S).out q = dig w S q := by
  unfold fed_all statics.out dig
  rw [eat_all_st _ hn, if_pos hq, eat_chunks_st _ hn, if_pos hq, init_all_st _ hn, if_pos hq]
  simp only [hash_proc.digest, chunks, feed_append]

theorem verify_eq (L : hashlib) (have_cryptopp : Bool) (hashes : hashes_t) (w : statics L)
    (ins : istream) :
    verify L have_cryptopp hashes w ins
      = if (intersect (registry have_cryptopp) hashes.entries).isEmpty then
          { ret := 2, hashes := hashes, procs := w, ins := ins, log := [notice_line],
            ok := 0, failed := 0 }
        else
          if (verify_loop L (intersect (registry have_cryptopp) hashes.entries)
              (init_all (intersect (registry have_cryptopp) hashes.entries).entries w)
              (resize [] 8192) ins).1 = false then
            { ret := 1, hashes := hashes
              procs := (verify_loop L (intersect (registry have_cryptopp) hashes.entries)
                (init_all (intersect (registry have_cryptopp) hashes.entries).entries w)
                (resize [] 8192) ins).2.1
              ins := (verify_loop L (intersect (registry have_cryptopp) hashes.entries)
                (init_all (intersect (registry have_cryptopp) hashes.entries).entries w)
                (resize [] 8192) ins).2.2
              log := [], ok := 0, failed := 0 }
          else
            verify_compare L (intersect (registry have_cryptopp) hashes.entries) hashes
              (verify_loop L (intersect (registry have_cryptopp) hashes.entries)
                (init_all (intersect (registry have_cryptopp) hashes.entries).entries w)
                (resize [] 8192) ins).2.1
              (verify_loop L (intersect (registry have_cryptopp) hashes.entries)
                (init_all (intersect (registry have_cryptopp) hashes.entries).entries w)
                (resize [] 8192) ins).2.2 :=
  rfl

theorem hashes_keys_nodup (hashes : hashes_t) : (keysOf hashes.entries).Nodup :=
  hashes.sorted.imp (fun h => key_lt_ne h)

theorem verify_compare_eq (L : hashlib) (have_cryptopp : Bool) (hashes : hashes_t)
    (w : statics L) (S : List Nat) (ins : istream) :
    verify_compare L (intersect (registry have_cryptopp) hashes.entries) hashes
        (fed_all (intersect (registry have_cryptopp) hashes.entries) w S) ins
      = { ret :=
            if (hashes.entries.filter
                (is_bad (registry have_cryptopp) (dig w S))).length ≠ 0 then 3
            else if (hashes.entries.filter
                (is_good (registry have_cryptopp) (dig w S))).length ≠ 0 then 0
            else 2
          hashes := hashes
          procs := finish_found
            (found (intersect (registry have_cryptopp) hashes.entries) (keysOf hashes.entries))
            (fed_all (intersect (registry have_cryptopp) hashes.entries) w S)
          ins := ins
          log := hashes.entries.map (report_line (registry have_cryptopp) (dig w S))
          ok := (hashes.entries.filter (is_good (registry have_cryptopp) (dig w S))).length
          failed := (hashes.entries.filter
            (is_bad (registry have_cryptopp) (dig w S))).length } := by
  have hn := intersect_ptrs_nodup (registry have_cryptopp)
    (registry_ptrs_nodup have_cryptopp) hashes.entries
  have hf := found_nodup _ hn _ (hashes_keys_nodup hashes)
  have hfind : ∀ i ∈ hashes.entries,
      (intersect (registry have_cryptopp) hashes.entries).find? i.1
        = (registry have_cryptopp).find? i.1 :=
    fun i hi => intersect_find_of_mem _ _ i hi
  have hout : ∀ i ∈ hashes.entries, ∀ q,
      (registry have_cryptopp).find? i.1 = some q →
      (fed_all (intersect (registry have_cryptopp) hashes.entries) w S).out q = dig w S q := by
    intro i hi q hq
    apply fed_all_out _ hn
    exact (mem_ptrs_iff _ q).2 ⟨i.1, (hfind i hi).trans hq⟩
  have hg : hashes.entries.filter (is_good (intersect (registry have_cryptopp) hashes.entries)
        (fed_all (intersect (registry have_cryptopp) hashes.entries) w S).out)
      = hashes.entries.filter (is_good (registry have_cryptopp) (dig w S)) := by
    apply List.filter_congr
    intro i hi
    unfold is_good
    rw [hfind i hi]
    cases hq : (registry have_cryptopp).find? i.1 with
    | none => rfl
    | some q => simp only [hout i hi q hq]
  have hb : hashes.entries.filter (is_bad (intersect (registry have_cryptopp) hashes.entries)
        (fed_all (intersect (registry have_cryptopp) hashes.entries) w S).out)
      = hashes.entries.filter (is_bad (registry have_cryptopp) (dig w S)) := by
    apply List.filter_congr
    intro i hi
    unfold is_bad
    rw [hfind i hi]
    cases hq : (registry have_cryptopp).find? i.1 with
    | none => rfl
    | some q => simp only [hout i hi q hq]
  have hl : hashes.entries.map (report_line (intersect (registry have_cryptopp) hashes.entries)
        (fed_all (intersect (registry have_cryptopp) hashes.entries) w S).out)
      = hashes.entries.map (report_line (registry have_cryptopp) (dig w S)) := by
    apply List.map_congr_left
    intro i hi
    unfold report_line
    rw [hfind i hi]
    cases hq : (registry have_cryptopp).find? i.1 with
    | none => rfl
    | some q => simp only [hout i hi q hq]
  unfold verify_compare
  simp only [verify_fold _ _ _ hf, hg, hb, hl, Nat.zero_add, List.nil_append]

/-- What `hashfile::verify` leaves behind on a clean stream when at least one name of
the record is supported. -/
theorem verify_clean (L : hashlib) (have_cryptopp : Bool) (hashes : hashes_t)
    (w : statics L) (ins : istream) (hc : ins.clean = true)
    (hne : (intersect (registry have_cryptopp) hashes.entries).isEmpty = false) :
    verify L have_cryptopp hashes w ins
      = { ret :=
            if (hashes.entries.filter
                (is_bad (registry have_cryptopp) (dig w ins.content))).length ≠ 0 then 3
            else if (hashes.entries.filter
                (is_good (registry have_cryptopp) (dig w ins.content))).length ≠ 0 then 0
            else 2
          hashes := hashes
          procs := finish_found
            (found (intersect (registry have_cryptopp) hashes.entries) (keysOf hashes.entries))
            (fed_all (intersect (registry have_cryptopp) hashes.entries) w ins.content)
          ins := ins.at_eof
          log := hashes.entries.map (report_line (registry have_cryptopp) (dig w ins.content))
          ok := (hashes.entries.filter
            (is_good (registry have_cryptopp) (dig w ins.content))).length
          failed := (hashes.entries.filter
            (is_bad (registry have_cryptopp) (dig w ins.content))).length } := by
  rw [verify_eq, hne]
  rw [verify_loop_clean L _ ins.content.length ins _ _ rfl hc (resize_nil_length 8192)]
  simp only [Bool.false_eq_true, if_false, Bool.true_eq_false]
  exact verify_compare_eq L have_cryptopp hashes w ins.content ins.at_eof

theorem verify_empty (L : hashlib) (have_cryptopp : Bool) (hashes : hashes_t)
    (w : statics L) (ins : istream)
    (he : (intersect (registry have_cryptopp) hashes.entries).isEmpty = true) :
    verify L have_cryptopp hashes w ins
      = { ret := 2, hashes := hashes, procs := w, ins := ins, log := [notice_line],
          ok := 0, failed := 0 } := by
  rw [verify_eq, he]
  rfl

/-! ## The report lines -/

theorem line_split (p1 p2 s1 s2 a b : String) (hp : p1.data.length = p2.data.length)
    (h : p1 ++ a ++ s1 = p2 ++ b ++ s2) : p1 = p2 ∧ a.data ++ s1.data = b.data ++ s2.data := by
  have h1 := congrArg String.data h
  simp only [String.data_append, List.append_assoc] at h1
  have h2 := List.append_inj h1 hp
  exact ⟨String.ext h2.1, h2.2⟩

theorem good_line_inj (a b : String) (h : good_line a = good_line b) : a = b := by
  have h1 := (line_split _ _ _ _ a b rfl h).2
  exact String.ext (List.append_cancel_right h1)

theorem bad_line_inj (a b : String) (h : bad_line a = bad_line b) : a = b := by
  have h1 := (line_split _ _ _ _ a b rfl h).2
  exact String.ext (List.append_cancel_right h1)

theorem unsupported_line_inj (a b : String) (h : unsupported_line a = unsupported_line b) :
    a = b := by
  have h1 := (line_split _ _ _ _ a b rfl h).2
  exact String.ext (List.append_cancel_right h1)

theorem bad_ne_good (a b : String) : bad_line a ≠ good_line b := by
  intro h
  have h1 := (line_split "hash verification: :-( " "hash verification: ;-) " _ _ a b
    (by decide) h).1
  exact absurd h1 (by decide)

theorem unsupported_ne_good (a b : String) : unsupported_line a ≠ good_line b := by
  intro h
  have h1 := (line_split "hash verification: :-/ " "hash verification: ;-) " _ _ a b
    (by decide) h).1
  exact absurd h1 (by decide)

theorem unsupported_ne_bad (a b : String) : unsupported_line a ≠ bad_line b := by
  intro h
  have h1 := (line_split "hash verification: :-/ " "hash verification: :-( " _ _ a b
    (by decide) h).1
  exact absurd h1 (by decide)

theorem demo_lib_resets : demo_lib.resets :=
  ⟨fun _ _ => rfl, fun _ _ => rfl, fun _ _ => rfl, fun _ _ => rfl, fun _ _ => rfl⟩

theorem resets_init (L : hashlib) (h : L.resets) (p : procid) (s t : L.state p) :
    (L.cls p).init s = (L.cls p).init t := by
  cases p
  · exact h.1 s t
  · exact h.2.1 s t
  · exact h.2.2.1 s t
  · exact h.2.2.2.1 s t
  · exact h.2.2.2.2 s t
  · rfl

theorem dig_resets (L : hashlib) (h : L.resets) (w1 w2 : statics L) (S : List Nat)
    (p : procid) : dig w1 S p = dig w2 S p := by
  unfold dig hash_proc.digest
  rw [resets_init L h p (w1.st p) (w2.st p)]

theorem intersect_isEmpty_false_iff (hm_all : hashmap) (es : List (String × List Nat)) :
    (intersect hm_all es).isEmpty = false
      ↔ ∃ n ∈ keysOf es, ∃ p, hm_all.find? n = some p := by
  constructor
  · intro h
    cases he : (intersect hm_all es).entries with
    | nil => simp [smap.isEmpty, he] at h
    | cons e t =>
      have hmem : (e.1, e.2) ∈ (intersect hm_all es).entries := by simp [he]
      have hf := (smap.find?_eq_some_iff _ e.1 e.2).2 hmem
      have := (intersect_find_iff hm_all es e.1 e.2).1 hf
      exact ⟨e.1, this.1, e.2, this.2⟩
  · rintro ⟨n, hn, p, hp⟩
    have hf := (intersect_find_iff hm_all es n p).2 ⟨hn, hp⟩
    have hmem := (smap.find?_eq_some_iff _ n p).1 hf
    cases he : (intersect hm_all es).entries with
    | nil => rw [he] at hmem; cases hmem
    | cons e t => simp [smap.isEmpty, he]

theorem registry_find_of_mem (have_cryptopp : Bool) (j : String × procid)
    (hj : j ∈ (registry have_cryptopp).entries) :
    (registry have_cryptopp).find? j.1 = some j.2 :=
  (smap.find?_eq_some_iff _ j.1 j.2).2 hj

theorem registry_has_size64 (have_cryptopp : Bool) :
    ("SIZE64", procid.sh) ∈ (registry have_cryptopp).entries := by
  rw [registry_entries]
  cases have_cryptopp <;> decide

/-- The lines, and the numbers of GOOD and BAD, for a record that holds the value `d p`
under each name of the registry. -/
theorem report_created (have_cryptopp : Bool) (d out : procid → List Nat)
    (es : List (String × List Nat))
    (hes : es = (registry have_cryptopp).entries.map (fun i => (i.1, d i.2))) :
    es.map (report_line (registry have_cryptopp) out)
      = (registry have_cryptopp).entries.map
          (fun j => if d j.2 = out j.2 then good_line j.1 else bad_line j.1) ∧
    (es.filter (is_good (registry have_cryptopp) out)).length
      = ((registry have_cryptopp).entries.filter (fun j => decide (d j.2 = out j.2))).length ∧
    (es.filter (is_bad (registry have_cryptopp) out)).length
      = ((registry have_cryptopp).entries.filter (fun j => decide (d j.2 ≠ out j.2))).length := by
  subst hes
  refine ⟨?_, ?_, ?_⟩
  · rw [List.map_map]
    apply List.map_congr_left
    intro j hj
    simp only [Function.comp, report_line, registry_find_of_mem have_cryptopp j hj]
  · rw [List.filter_map, List.length_map]
    congr 1
    apply List.filter_congr
    intro j hj
    simp only [Function.comp, is_good, registry_find_of_mem have_cryptopp j hj]
  · rw [List.filter_map, List.length_map]
    congr 1
    apply List.filter_congr
    intro j hj
    simp only [Function.comp, is_bad, registry_find_of_mem have_cryptopp j hj]

theorem created_intersect_nonempty (L : hashlib) (have_cryptopp : Bool) (hashes : hashes_t)
    (w : statics L) (ins : istream) (hc : ins.clean = true) :
    (intersect (registry have_cryptopp)
      (create L have_cryptopp hashes w ins).hashes.entries).isEmpty = false := by
  rw [intersect_isEmpty_false_iff]
  refine ⟨"SIZE64", ?_, procid.sh, registry_find_of_mem _ _ (registry_has_size64 _)⟩
  rw [(create_clean L have_cryptopp hashes w ins hc).2]
  exact List.mem_map.2 ⟨_, List.mem_map.2 ⟨_, registry_has_size64 have_cryptopp, rfl⟩, rfl⟩

theorem filter_length_ne_zero_iff {α : Type} (p : α → Bool) (l : List α) :
    (l.filter p).length ≠ 0 ↔ ∃ x ∈ l, p x = true := by
  rw [Ne, List.length_eq_zero, List.filter_eq_nil_iff]
  push_neg
  rfl

theorem is_bad_iff (hm : hashmap) (out : procid → List Nat) (i : String × List Nat) :
    is_bad hm out i = true ↔ ∃ p, hm.find? i.1 = some p ∧ i.2 ≠ out p := by
  unfold is_bad
  cases h : hm.find? i.1 with
  | none => simp
  | some q => simp

theorem is_good_iff (hm : hashmap) (out : procid → List Nat) (i : String × List Nat) :
    is_good hm out i = true ↔ ∃ p, hm.find? i.1 = some p ∧ i.2 = out p := by
  unfold is_good
  cases h : hm.find? i.1 with
  | none => simp
  | some q => simp

theorem nonempty_of_supported (have_cryptopp : Bool) (R : hashes_t)
    (hne : ∃ n ∈ R.keys, ∃ p, (registry have_cryptopp).find? n = some p) :
    (intersect (registry have_cryptopp) R.entries).isEmpty = false :=
  (intersect_isEmpty_false_iff _ _).2 hne

/-- The return code of `verify` on a clean stream, for a record with at least one
supported name: 3 exactly when some supported entry differs from its processor's digest
of the stream, 0 exactly when every supported entry equals it. -/
theorem verify_decision (L : hashlib) (have_cryptopp : Bool) (R : hashes_t)
    (w : statics L) (ins : istream) (hc : ins.clean = true)
    (hne : ∃ n ∈ R.keys, ∃ p, (registry have_cryptopp).find? n = some p) :
    ((verify L have_cryptopp R w ins).ret = 3 ↔
      ∃ n v p, (n, v) ∈ R.entries ∧ (registry have_cryptopp).find? n = some p ∧
        v ≠ dig w ins.content p) ∧
    ((verify L have_cryptopp R w ins).ret = 0 ↔
      ∀ n v p, (n, v) ∈ R.entries → (registry have_cryptopp).find? n = some p →
        v = dig w ins.content p) := by
  rw [verify_clean L have_cryptopp R w ins hc (nonempty_of_supported have_cryptopp R hne)]
  simp only
  have hbad : (R.entries.filter (is_bad (registry have_cryptopp) (dig w ins.content))).length ≠ 0
      ↔ ∃ n v p, (n, v) ∈ R.entries ∧ (registry have_cryptopp).find? n = some p ∧
        v ≠ dig w ins.content p := by
    rw [filter_length_ne_zero_iff]
    constructor
    · rintro ⟨i, hi, hb⟩
      obtain ⟨p, hp, hv⟩ := (is_bad_iff _ _ i).1 hb
      exact ⟨i.1, i.2, p, hi, hp, hv⟩
    · rintro ⟨n, v, p, hi, hp, hv⟩
      exact ⟨(n, v), hi, (is_bad_iff _ _ (n, v)).2 ⟨p, hp, hv⟩⟩
  have hgood : (R.entries.filter (is_good (registry have_cryptopp) (dig w ins.content))).length ≠ 0
      ↔ ∃ n v p, (n, v) ∈ R.entries ∧ (registry have_cryptopp).find? n = some p ∧
        v = dig w ins.content p := by
    rw [filter_length_ne_zero_iff]
    constructor
    · rintro ⟨i, hi, hb⟩
      obtain ⟨p, hp, hv⟩ := (is_good_iff _ _ i).1 hb
      exact ⟨i.1, i.2, p, hi, hp, hv⟩
    · rintro ⟨n, v, p, hi, hp, hv⟩
      exact ⟨(n, v), hi, (is_good_iff _ _ (n, v)).2 ⟨p, hp, hv⟩⟩
  by_cases hb : (R.entries.filter (is_bad (registry have_cryptopp) (dig w ins.content))).length ≠ 0
  · rw [if_pos hb]
    obtain ⟨n, v, p, hi, hp, hv⟩ := hbad.1 hb
    refine ⟨⟨fun _ => ⟨n, v, p, hi, hp, hv⟩, fun _ => rfl⟩, ⟨fun h => absurd h (by decide), ?_⟩⟩
    intro hall
    exact absurd (hall n v p hi hp) hv
  · rw [if_neg hb]
    have hall : ∀ n v p, (n, v) ∈ R.entries → (registry have_cryptopp).find? n = some p →
        v = dig w ins.content p := by
      intro n v p hi hp
      by_contra hv
      exact hb (hbad.2 ⟨n, v, p, hi, hp, hv⟩)
    have hg : (R.entries.filter
        (is_good (registry have_cryptopp) (dig w ins.content))).length ≠ 0 := by
      obtain ⟨n, hn, p, hp⟩ := hne
      obtain ⟨i, hi, hin⟩ := List.mem_map.1 hn
      refine hgood.2 ⟨n, i.2, p, ?_, hp, hall n i.2 p ?_ hp⟩
      · rw [← hin]; exact hi
      · rw [← hin]; exact hi
    rw [if_pos hg]
    refine ⟨⟨fun h => absurd h (by decide), ?_⟩, ⟨fun _ => hall, fun _ => rfl⟩⟩
    rintro ⟨n, v, p, hi, hp, hv⟩
    exact absurd (hall n v p hi hp) hv

theorem calls_on_append (p : procid) (a b : List (procid × call)) :
    calls_on p (a ++ b) = calls_on p a ++ calls_on p b := by
  simp [calls_on]

theorem calls_on_own (p : procid) (l : List call) :
    calls_on p (l.map (fun c => (p, c))) = l := by
  induction l with
  | nil => rfl
  | cons c t ih =>
    have : calls_on p ((c :: t).map (fun c => (p, c)))
        = c :: calls_on p (t.map (fun c => (p, c))) := by
      simp [calls_on]
    rw [this, ih]

theorem calls_on_other (p q : procid) (h : q ≠ p) (l : List call) :
    calls_on p (l.map (fun c => (q, c))) = [] := by
  induction l with
  | nil => rfl
  | cons c t ih =>
    have : calls_on p ((c :: t).map (fun c => (q, c)))
        = calls_on p (t.map (fun c => (q, c))) := by
      simp [calls_on, h]
    rw [this, ih]

theorem calls_on_each (p : procid) (ps : List procid) (hn : ps.Nodup)
    (g : procid → List call) :
    calls_on p (calls_each ps g) = if p ∈ ps then g p else [] := by
  induction ps with
  | nil => rfl
  | cons q t ih =>
    have hq : q ∉ t := (List.nodup_cons.1 hn).1
    have hcons : calls_each (q :: t) g = (g q).map (fun c => (q, c)) ++ calls_each t g := by
      simp [calls_each]
    rw [hcons, calls_on_append, ih (List.nodup_cons.1 hn).2]
    by_cases hp : p = q
    · subst hp
      rw [calls_on_own, if_neg hq, if_pos (List.mem_cons_self _ _), List.append_nil]
    · rw [calls_on_other p q (fun h => hp h.symm), List.nil_append]
      have : p ∈ q :: t ↔ p ∈ t := by simp [hp]
      simp only [this]

theorem map_eq_calls_each (ps : List procid) (c : call) :
    ps.map (fun p => (p, c)) = calls_each ps (fun _ => [c]) := by
  induction ps with
  | nil => rfl
  | cons q t ih =>
    have : calls_each (q :: t) (fun _ => [c]) = (q, c) :: calls_each t (fun _ => [c]) := by
      simp [calls_each]
    rw [this, ← ih]
    rfl

theorem calls_on_chunks (p : procid) (ps : List procid) (hn : ps.Nodup)
    (cs : List (List Nat)) :
    calls_on p (cs.flatMap (fun c => ps.map (fun q => (q, call.eat c))))
      = if p ∈ ps then cs.map call.eat else [] := by
  induction cs with
  | nil => simp [calls_on]
  | cons c t ih =>
    rw [List.flatMap_cons, calls_on_append, ih, map_eq_calls_each, calls_on_each p ps hn]
    by_cases hp : p ∈ ps
    · simp [hp]
    · simp [hp]

theorem finish_found_calls {L : hashlib} (ps : List procid) (hn : ps.Nodup) (w : statics L) :
    (finish_found ps w).calls
      = w.calls ++ calls_each ps (fun p => [call.finish (w.out p)]) := by
  induction ps generalizing w with
  | nil => simp [finish_found, calls_each]
  | cons q t ih =>
    have hq : q ∉ t := (List.nodup_cons.1 hn).1
    have hunf : finish_found (q :: t) w = finish_found t (w.finish q).2 := rfl
    have hcons : calls_each (q :: t) (fun p => [call.finish (w.out p)])
        = (q, call.finish (w.out q)) :: calls_each t (fun p => [call.finish (w.out p)]) := by
      simp [calls_each]
    have hsame : calls_each t (fun p => [call.finish ((w.finish q).2.out p)])
        = calls_each t (fun p => [call.finish (w.out p)]) := by
      unfold calls_each
      apply List.flatMap_congr
      intro p hp
      simp only [finish_out_other w q p (fun h => hq (h ▸ hp))]
    rw [hunf, ih (List.nodup_cons.1 hn).2, hcons, hsame]
    simp [statics.finish, statics.out]

theorem finish_all_calls {L : hashlib} (a : List Nat) (es : List (String × procid))
    (hn : (ptrsOf es).Nodup) (h : hashes_t) (w : statics L) :
    (finish_all es a (h, w)).2.calls
      = w.calls ++ calls_each (ptrsOf es) (fun p =>
          [call.eat a, call.finish ((L.cls p).finish ((L.cls p).eat (w.st p) a)).1]) := by
  induction es generalizing h w with
  | nil => simp [finish_all, calls_each, ptrsOf]
  | cons i t ih =>
    have hn2 : (ptrsOf t).Nodup := (List.nodup_cons.1 hn).2
    have hi : i.2 ∉ ptrsOf t := (List.nodup_cons.1 hn).1
    have hunf : finish_all (i :: t) a (h, w)
        = finish_all t a (h.insert i.1 ((w.eat i.2 a).finish i.2).1,
            ((w.eat i.2 a).finish i.2).2) := rfl
    have hcons : calls_each (ptrsOf (i :: t)) (fun p =>
          [call.eat a, call.finish ((L.cls p).finish ((L.cls p).eat (w.st p) a)).1])
        = (i.2, call.eat a)
          :: (i.2, call.finish ((L.cls i.2).finish ((L.cls i.2).eat (w.st i.2) a)).1)
          :: calls_each (ptrsOf t) (fun p =>
          [call.eat a, call.finish ((L.cls p).finish ((L.cls p).eat (w.st p) a)).1]) := by
      simp [calls_each, ptrsOf]
    have hsame : calls_each (ptrsOf t) (fun p => [call.eat a, call.finish
          ((L.cls p).finish ((L.cls p).eat (((w.eat i.2 a).finish i.2).2.st p) a)).1])
        = calls_each (ptrsOf t) (fun p =>
          [call.eat a, call.finish ((L.cls p).finish ((L.cls p).eat (w.st p) a)).1]) := by
      unfold calls_each
      apply List.flatMap_congr
      intro p hp
      have hne : p ≠ i.2 := fun he => hi (he ▸ hp)
      have : ((w.eat i.2 a).finish i.2).2.st p = w.st p := by
        simp [statics.finish, statics.eat, Function.update_noteq hne]
      simp only [this]
    rw [hunf, ih hn2, hcons, hsame]
    simp [statics.finish, statics.eat]

theorem new_calls_append (a b : List (procid × call)) : new_calls a (a ++ b) = b := by
  simp [new_calls]

theorem session_eq (S out : List Nat) :
    session S out
      = [call.init] ++ (full_chunks S).map call.eat ++ [call.eat (last_chunk S), call.finish out] := by
  simp [session, chunks]

theorem create_calls (L : hashlib) (have_cryptopp : Bool) (hashes : hashes_t)
    (w : statics L) (ins : istream) (hc : ins.clean = true) :
    (create L have_cryptopp hashes w ins).procs.calls
      = w.calls ++ ((ptrsOf (registry have_cryptopp).entries).map (fun p => (p, call.init))
          ++ (full_chunks ins.content).flatMap (fun c =>
                (ptrsOf (registry have_cryptopp).entries).map (fun p => (p, call.eat c)))
          ++ calls_each (ptrsOf (registry have_cryptopp).entries) (fun p =>
                [call.eat (last_chunk ins.content), call.finish (dig w ins.content p)])) := by
  have hn := registry_ptrs_nodup have_cryptopp
  have hloop := create_loop_clean L (registry have_cryptopp) hashes.clear
    ins.content.length ins (init_all (registry have_cryptopp).entries w) (resize [] 8192) rfl hc
    (resize_nil_length 8192)
  have hcreate : create L have_cryptopp hashes w ins
      = create_loop L (registry have_cryptopp) hashes.clear
          (init_all (registry have_cryptopp).entries w) (resize [] 8192) ins := rfl
  rw [hcreate, hloop]
  simp only
  rw [finish_all_calls _ _ hn, eat_chunks_calls, init_all_calls]
  have hsame : calls_each (ptrsOf (registry have_cryptopp).entries) (fun p =>
        [call.eat (last_chunk ins.content), call.finish ((L.cls p).finish ((L.cls p).eat
          ((eat_chunks (registry have_cryptopp).entries
            (init_all (registry have_cryptopp).entries w) (full_chunks ins.content)).st p)
          (last_chunk ins.content))).1])
      = calls_each (ptrsOf (registry have_cryptopp).entries) (fun p =>
        [call.eat (last_chunk ins.content), call.finish (dig w ins.content p)]) := by
    unfold calls_each
    apply List.flatMap_congr
    intro p hp
    have : (L.cls p).finish ((L.cls p).eat
          ((eat_chunks (registry have_cryptopp).entries
            (init_all (registry have_cryptopp).entries w) (full_chunks ins.content)).st p)
          (last_chunk ins.content)) = (L.cls p).finish
            ((L.cls p).feed ((L.cls p).init (w.st p)) (chunks ins.content)) := by
      rw [eat_chunks_st _ hn, if_pos hp, init_all_st _ hn, if_pos hp]
      simp only [chunks, feed_append]
    simp only [this, dig, hash_proc.digest]
  rw [hsame]
  simp only [List.append_assoc]

/-- The calls `create` makes on a processor of the registry, for a clean stream. -/
theorem create_calls_on (L : hashlib) (have_cryptopp : Bool) (hashes : hashes_t)
    (w : statics L) (ins : istream) (hc : ins.clean = true) (p : procid)
    (hp : p ∈ ptrsOf (registry have_cryptopp).entries) :
    calls_on p (new_calls w.calls (create L have_cryptopp hashes w ins).procs.calls)
      = session ins.content (dig w ins.content p) := by
  have hn := registry_ptrs_nodup have_cryptopp
  rw [create_calls L have_cryptopp hashes w ins hc, new_calls_append, calls_on_append,
    calls_on_append, map_eq_calls_each, calls_on_each p _ hn, calls_on_chunks p _ hn,
    calls_on_each p _ hn, session_eq]
  simp [hp]

theorem found_intersect (hm_all : hashmap)
    (es : List (String × List Nat)) (p : procid) :
    p ∈ found (intersect hm_all es) (keysOf es) ↔ p ∈ ptrsOf (intersect hm_all es).entries := by
  constructor
  · exact found_subset_ptrs _ _ p
  · intro h
    obtain ⟨n, hn⟩ := (mem_ptrs_iff _ p).1 h
    exact List.mem_filterMap.2 ⟨n, ((intersect_find_iff hm_all es n p).1 hn).1, hn⟩

theorem verify_calls (L : hashlib) (have_cryptopp : Bool) (hashes : hashes_t)
    (w : statics L) (ins : istream) (hc : ins.clean = true)
    (hne : (intersect (registry have_cryptopp) hashes.entries).isEmpty = false) :
    (verify L have_cryptopp hashes w ins).procs.calls
      = w.calls ++ ((ptrsOf (intersect (registry have_cryptopp) hashes.entries).entries).map
            (fun p => (p, call.init))
          ++ (full_chunks ins.content).flatMap (fun c =>
                (ptrsOf (intersect (registry have_cryptopp) hashes.entries).entries).map
                  (fun p => (p, call.eat c)))
          ++ (ptrsOf (intersect (registry have_cryptopp) hashes.entries).entries).map
                (fun p => (p, call.eat (last_chunk ins.content)))
          ++ calls_each
              (found (intersect (registry have_cryptopp) hashes.entries) (keysOf hashes.entries))
              (fun p => [call.finish (dig w ins.content p)])) := by
  have hn := intersect_ptrs_nodup (registry have_cryptopp)
    (registry_ptrs_nodup have_cryptopp) hashes.entries
  have hf := found_nodup _ hn _ (hashes_keys_nodup hashes)
  rw [verify_clean L have_cryptopp hashes w ins hc hne]
  simp only
  rw [finish_found_calls _ hf]
  have hsame : calls_each
        (found (intersect (registry have_cryptopp) hashes.entries) (keysOf hashes.entries))
        (fun p => [call.finish
          ((fed_all (intersect (registry have_cryptopp) hashes.entries) w ins.content).out p)])
      = calls_each
        (found (intersect (registry have_cryptopp) hashes.entries) (keysOf hashes.entries))
        (fun p => [call.finish (dig w ins.content p)]) := by
    unfold calls_each
    apply List.flatMap_congr
    intro p hp
    simp only [fed_all_out _ hn w ins.content p (found_subset_ptrs _ _ p hp)]
  rw [hsame]
  unfold fed_all
  rw [eat_all_calls, eat_chunks_calls, init_all_calls]
  simp only [List.append_assoc]

/-- The calls `verify` makes on a processor of its working set, for a clean stream. -/
theorem verify_calls_on (L : hashlib) (have_cryptopp : Bool) (hashes : hashes_t)
    (w : statics L) (ins : istream) (hc : ins.clean = true) (p : procid)
    (hp : p ∈ ptrsOf (intersect (registry have_cryptopp) hashes.entries).entries) :
    calls_on p (new_calls w.calls (verify L have_cryptopp hashes w ins).procs.calls)
      = session ins.content (dig w ins.content p) := by
  have hn := intersect_ptrs_nodup (registry have_cryptopp)
    (registry_ptrs_nodup have_cryptopp) hashes.entries
  have hf := found_nodup _ hn _ (hashes_keys_nodup hashes)
  have hne : (intersect (registry have_cryptopp) hashes.entries).isEmpty = false := by
    cases he : (intersect (registry have_cryptopp) hashes.entries).entries with
    | nil => rw [he] at hp; cases hp
    | cons e t => simp [smap.isEmpty, he]
  have hp2 := (found_intersect (registry have_cryptopp) hashes.entries p).2 hp
  rw [verify_calls L have_cryptopp hashes w ins hc hne, new_calls_append, calls_on_append,
    calls_on_append, calls_on_append, map_eq_calls_each, map_eq_calls_each,
    calls_on_each p _ hn, calls_on_chunks p _ hn, calls_on_each p _ hn,
    calls_on_each p _ hf, session_eq]
  simp [hp, hp2]

theorem report_line_good_iff (hm : hashmap) (out : procid → List Nat)
    (i : String × List Nat) (n : String) :
    report_line hm out i = good_line n ↔ i.1 = n ∧ ∃ p, hm.find? i.1 = some p ∧ i.2 = out p := by
  unfold report_line
  cases h : hm.find? i.1 with
  | none =>
    constructor
    · intro h2
      exact absurd h2 (unsupported_ne_good _ _)
    · rintro ⟨_, p, hp, _⟩
      cases hp
  | some q =>
    by_cases hv : i.2 = out q
    · constructor
      · intro h2
        simp only [if_pos hv] at h2
        exact ⟨good_line_inj _ _ h2, q, rfl, hv⟩
      · rintro ⟨h2, _⟩
        show (if i.2 = out q then good_line i.1 else bad_line i.1) = good_line n
        rw [if_pos hv, h2]
    · constructor
      · intro h2
        simp only [if_neg hv] at h2
        exact absurd h2 (bad_ne_good _ _)
      · rintro ⟨_, p, hp, hv2⟩
        cases hp
        exact absurd hv2 hv

theorem entries_value_unique {α : Type} (m : smap α) (n : String) (a b : α)
    (ha : (n, a) ∈ m.entries) (hb : (n, b) ∈ m.entries) : a = b := by
  have h1 := (smap.find?_eq_some_iff m n a).2 ha
  have h2 := (smap.find?_eq_some_iff m n b).2 hb
  rw [h1] at h2
  exact Option.some.inj h2

theorem create_find (L : hashlib) (have_cryptopp : Bool) (hashes : hashes_t)
    (w : statics L) (ins : istream) (hc : ins.clean = true) (n : String) (p : procid)
    (hp : (registry have_cryptopp).find? n = some p) :
    (create L have_cryptopp hashes w ins).hashes.find? n = some (dig w ins.content p) := by
  rw [smap.find?_eq_some_iff, (create_clean L have_cryptopp hashes w ins hc).2]
  exact List.mem_map.2 ⟨(n, p), (smap.find?_eq_some_iff _ n p).1 hp, rfl⟩

theorem mem_intersect_ptrs (hm_all : hashmap) (R : hashes_t) (n : String) (v : List Nat)
    (p : procid) (hn : (n, v) ∈ R.entries) (hp : hm_all.find? n = some p) :
    p ∈ ptrsOf (intersect hm_all R.entries).entries :=
  (mem_ptrs_iff _ p).2 ⟨n, (intersect_find_iff hm_all R.entries n p).2
    ⟨List.mem_map.2 ⟨(n, v), hn, rfl⟩, hp⟩⟩

theorem size64_finish (s : Nat) : size64proc.finish s = (le64 s, s / 256 ^ 8) := by
  have hr : List.range 8 = [0, 1, 2, 3, 4, 5, 6, 7] := by decide
  have hz : resize [] 8 = [0, 0, 0, 0, 0, 0, 0, 0] := by decide
  simp only [size64proc, size64_finish_loop, le64, hr, hz, List.foldl, List.set, List.map,
    Nat.div_div_eq_div_mul]
  norm_num

theorem chunks_length_sum (n : Nat) : ∀ S : List Nat, S.length = n →
    ((full_chunks S).map List.length).sum + (last_chunk S).length = S.length := by
  induction n using Nat.strong_induction_on with
  | _ n ih =>
    intro S hS
    by_cases h : 8192 ≤ S.length
    · rw [full_chunks_ge S h, last_chunk_ge S h]
      have := ih (n - 8192) (by omega) (S.drop 8192) (by rw [List.length_drop]; omega)
      simp only [List.map_cons, List.sum_cons, List.length_take, List.length_drop] at this ⊢
      omega
    · rw [full_chunks_lt S h, last_chunk_lt S h]
      simp

theorem size64_feed (cs : List (List Nat)) (s : Nat) :
    size64proc.feed s cs % 2 ^ 64 = (s + (cs.map List.length).sum) % 2 ^ 64 := by
  induction cs generalizing s with
  | nil => simp [hash_proc.feed]
  | cons c t ih =>
    have : size64proc.feed s (c :: t) = size64proc.feed ((s + c.length) % 2 ^ 64) t := rfl
    rw [this, ih]
    simp only [List.map_cons, List.sum_cons]
    omega

theorem size64_digest (s : Nat) (S : List Nat) :
    size64proc.digest s S = le64 (S.length % 2 ^ 64) := by
  unfold hash_proc.digest chunks
  rw [feed_append, size64_finish]
  have h1 : size64proc.eat (size64proc.feed (size64proc.init s) (full_chunks S)) (last_chunk S)
      = (size64proc.feed 0 (full_chunks S) + (last_chunk S).length) % 2 ^ 64 := rfl
  have h2 := size64_feed (full_chunks S) 0
  have h3 := chunks_length_sum S.length S rfl
  have h4 : (size64proc.feed 0 (full_chunks S) + (last_chunk S).length) % 2 ^ 64
      = S.length % 2 ^ 64 := by
    omega
  rw [h1, h4]

theorem le64_length (n : Nat) : (le64 n).length = 8 := by
  simp [le64]

theorem chunks_short (S : List Nat) (h : S.length < 8192) : chunks S = [S] := by
  unfold chunks
  rw [full_chunks_lt S (by omega), last_chunk_lt S (by omega)]
  rfl

theorem registry_length_ne_zero (have_cryptopp : Bool) :
    (registry have_cryptopp).entries.length ≠ 0 := by
  intro h0
  have := registry_has_size64 have_cryptopp
  rw [List.length_eq_zero.1 h0] at this
  cases this

/-- What `verify` reports on a clean stream against a record made by `create`: the
result is decided by comparing, for each processor of the registry, its digest of the
bytes created from with its digest of the bytes verified. -/
theorem verify_created (L : hashlib) (have_cryptopp : Bool) (prior : hashes_t)
    (w0 w1 : statics L) (in1 in2 : istream) (h1 : in1.clean = true) (h2 : in2.clean = true) :
    (verify L have_cryptopp (create L have_cryptopp prior w0 in1).hashes w1 in2).log
      = (registry have_cryptopp).entries.map (fun j =>
          if dig w0 in1.content j.2 = dig w1 in2.content j.2 then good_line j.1
          else bad_line j.1) ∧
    (verify L have_cryptopp (create L have_cryptopp prior w0 in1).hashes w1 in2).ok
      = ((registry have_cryptopp).entries.filter (fun j =>
          decide (dig w0 in1.content j.2 = dig w1 in2.content j.2))).length ∧
    (verify L have_cryptopp (create L have_cryptopp prior w0 in1).hashes w1 in2).failed
      = ((registry have_cryptopp).entries.filter (fun j =>
          decide (dig w0 in1.content j.2 ≠ dig w1 in2.content j.2))).length ∧
    (verify L have_cryptopp (create L have_cryptopp prior w0 in1).hashes w1 in2).ret
      = if (∃ j ∈ (registry have_cryptopp).entries,
            dig w0 in1.content j.2 ≠ dig w1 in2.content j.2) then 3 else 0 := by
  have hcr := create_clean L have_cryptopp prior w0 in1 h1
  have hne := created_intersect_nonempty L have_cryptopp prior w0 in1 h1
  have hrep := report_created have_cryptopp (dig w0 in1.content) (dig w1 in2.content)
    (create L have_cryptopp prior w0 in1).hashes.entries hcr.2
  rw [verify_clean L have_cryptopp _ w1 in2 h2 hne]
  simp only [hrep.1, hrep.2.1, hrep.2.2]
  refine ⟨trivial, trivial, trivial, ?_⟩
  by_cases hex : ∃ j ∈ (registry have_cryptopp).entries,
      dig w0 in1.content j.2 ≠ dig w1 in2.content j.2
  · have hb : ((registry have_cryptopp).entries.filter (fun j =>
        decide (dig w0 in1.content j.2 ≠ dig w1 in2.content j.2))).length ≠ 0 := by
      rw [filter_length_ne_zero_iff]
      obtain ⟨j, hj, hd⟩ := hex
      exact ⟨j, hj, by simpa using hd⟩
    rw [if_pos hb, if_pos hex]
  · have hall : ∀ j ∈ (registry have_cryptopp).entries,
        dig w0 in1.content j.2 = dig w1 in2.content j.2 := by
      intro j hj
      by_contra hd
      exact hex ⟨j, hj, hd⟩
    have hb : ¬ ((registry have_cryptopp).entries.filter (fun j =>
        decide (dig w0 in1.content j.2 ≠ dig w1 in2.content j.2))).length ≠ 0 := by
      rw [filter_length_ne_zero_iff]
      rintro ⟨j, hj, hd⟩
      exact (by simpa using hd : ¬ _) (hall j hj)
    have hg : ((registry have_cryptopp).entries.filter (fun j =>
        decide (dig w0 in1.content j.2 = dig w1 in2.content j.2))).length ≠ 0 := by
      rw [filter_length_ne_zero_iff]
      exact ⟨_, registry_has_size64 have_cryptopp,
        by simpa using hall _ (registry_has_size64 have_cryptopp)⟩
    rw [if_neg hb, if_pos hg, if_neg hex]

theorem intersect_fold_filter (hm_all : hashmap) (es : List (String × List Nat))
    (acc : hashmap) :
    (es.filter (fun i => (hm_all.find? i.1).isSome)).foldl (fun hm i =>
        match hm_all.find? i.1 with
        | some p => hm.insert i.1 p
        | none => hm) acc
      = es.foldl (fun hm i =>
        match hm_all.find? i.1 with
        | some p => hm.insert i.1 p
        | none => hm) acc := by
  induction es generalizing acc with
  | nil => rfl
  | cons i t ih =>
    cases h : hm_all.find? i.1 with
    | none =>
      rw [List.filter_cons_of_neg (by simp [h]), List.foldl_cons, ih]
      simp only [h]
    | some p =>
      rw [List.filter_cons_of_pos (by simp [h]), List.foldl_cons, List.foldl_cons, ih]

theorem intersect_restrict (hm_all : hashmap) (R : hashes_t) :
    intersect hm_all (restrict hm_all R).entries = intersect hm_all R.entries :=
  intersect_fold_filter hm_all R.entries smap.empty

theorem verify_fold_filter {L : hashlib} (hm : hashmap) (es : List (String × List Nat))
    (s s2 : verify_state L) (hp : s.procs = s2.procs) (ho : s.ok = s2.ok)
    (hf : s.failed = s2.failed) :
    ((es.filter (fun i => (hm.find? i.1).isSome)).foldl (verify_step L hm) s).procs
        = (es.foldl (verify_step L hm) s2).procs ∧
    ((es.filter (fun i => (hm.find? i.1).isSome)).foldl (verify_step L hm) s).ok
        = (es.foldl (verify_step L hm) s2).ok ∧
    ((es.filter (fun i => (hm.find? i.1).isSome)).foldl (verify_step L hm) s).failed
        = (es.foldl (verify_step L hm) s2).failed := by
  induction es generalizing s s2 with
  | nil => exact ⟨hp, ho, hf⟩
  | cons i t ih =>
    cases h : hm.find? i.1 with
    | none =>
      rw [List.filter_cons_of_neg (by simp [h]), List.foldl_cons]
      apply ih
      · simp only [verify_step, h, hp]
      · simp only [verify_step, h, ho]
      · simp only [verify_step, h, hf]
    | some p =>
      rw [List.filter_cons_of_pos (by simp [h]), List.foldl_cons, List.foldl_cons]
      apply ih
      · simp only [verify_step, h, hp]
        split <;> rfl
      · simp only [verify_step, h, hp, ho]
        split <;> rfl
      · simp only [verify_step, h, hp, hf]
        split <;> rfl

theorem restrict_entries_eq (hm_all : hashmap) (R : hashes_t) :
    (restrict hm_all R).entries
      = R.entries.filter (fun i => ((intersect hm_all R.entries).find? i.1).isSome) := by
  unfold restrict
  apply List.filter_congr
  intro i hi
  rw [intersect_find_of_mem hm_all R.entries i hi]

theorem verify_restrict_ret (L : hashlib) (have_cryptopp : Bool) (R : hashes_t)
    (w : statics L) (ins : istream) :
    (verify L have_cryptopp (restrict (registry have_cryptopp) R) w ins).ret
      = (verify L have_cryptopp R w ins).ret := by
  rw [verify_eq, verify_eq, intersect_restrict]
  by_cases he : (intersect (registry have_cryptopp) R.entries).isEmpty = true
  · rw [if_pos he, if_pos he]
  · rw [if_neg he, if_neg he]
    by_cases hl : (verify_loop L (intersect (registry have_cryptopp) R.entries)
        (init_all (intersect (registry have_cryptopp) R.entries).entries w)
        (resize [] 8192) ins).1 = false
    · rw [if_pos hl, if_pos hl]
    · rw [if_neg hl, if_neg hl]
      unfold verify_compare
      simp only
      rw [restrict_entries_eq]
      obtain ⟨_, h2, h3⟩ := verify_fold_filter (intersect (registry have_cryptopp) R.entries)
        R.entries
        ({ procs := (verify_loop L (intersect (registry have_cryptopp) R.entries)
            (init_all (intersect (registry have_cryptopp) R.entries).entries w)
            (resize [] 8192) ins).2.1, ok := 0, failed := 0, log := [] } : verify_state L)
        { procs := (verify_loop L (intersect (registry have_cryptopp) R.entries)
            (init_all (intersect (registry have_cryptopp) R.entries).entries w)
            (resize [] 8192) ins).2.1, ok := 0, failed := 0, log := [] } rfl rfl rfl
      rw [h2, h3]

theorem report_line_bad_iff (hm : hashmap) (out : procid → List Nat)
    (i : String × List Nat) (n : String) :
    report_line hm out i = bad_line n ↔ i.1 = n ∧ ∃ p, hm.find? i.1 = some p ∧ i.2 ≠ out p := by
  unfold report_line
  cases h : hm.find? i.1 with
  | none =>
    constructor
    · intro h2
      exact absurd h2 (unsupported_ne_bad _ _)
    · rintro ⟨_, p, hp, _⟩
      cases hp
  | some q =>
    by_cases hv : i.2 = out q
    · constructor
      · intro h2
        simp only [if_pos hv] at h2
        exact absurd h2.symm (bad_ne_good _ _)
      · rintro ⟨_, p, hp, hv2⟩
        cases hp
        exact absurd hv hv2
    · constructor
      · intro h2
        simp only [if_neg hv] at h2
        exact ⟨bad_line_inj _ _ h2, q, rfl, hv⟩
      · rintro ⟨h2, _⟩
        show (if i.2 = out q then good_line i.1 else bad_line i.1) = bad_line n
        rw [if_neg hv, h2]

theorem good_bad_count (hm : hashmap) (out : procid → List Nat)
    (es : List (String × List Nat)) :
    (es.filter (is_good hm out)).length + (es.filter (is_bad hm out)).length
      = (es.filter (fun i => (hm.find? i.1).isSome)).length := by
  induction es with
  | nil => rfl
  | cons i t ih =>
    simp only [List.filter_cons]
    cases h : hm.find? i.1 with
    | none =>
      simp only [is_good, is_bad, h, Option.isSome_none, Bool.false_eq_true, if_false]
      exact ih
    | some q =>
      by_cases hv : i.2 = out q
      · simp only [is_good, is_bad, h, hv, Option.isSome_some, decide_True, if_true,
          ne_eq, not_true_eq_false, decide_False, Bool.false_eq_true, if_false,
          List.length_cons]
        omega
      · simp only [is_good, is_bad, h, hv, Option.isSome_some, decide_False, if_true,
          ne_eq, not_false_eq_true, decide_True, Bool.false_eq_true, if_false,
          List.length_cons]
        omega

/-- When `verify` returns 0 or 3 it has been through its comparison loop: the lines are
one per entry of the record, and `ok` and `failed` count the good and the bad entries,
for the outputs `out` the processors returned. -/
theorem verify_compare_phase (L : hashlib) (have_cryptopp : Bool) (R : hashes_t)
    (w : statics L) (ins : istream)
    (h : (verify L have_cryptopp R w ins).ret = 0 ∨ (verify L have_cryptopp R w ins).ret = 3) :
    ∃ out : procid → List Nat,
      (verify L have_cryptopp R w ins).log
        = R.entries.map (report_line (registry have_cryptopp) out) ∧
      (verify L have_cryptopp R w ins).ok
        = (R.entries.filter (is_good (registry have_cryptopp) out)).length ∧
      (verify L have_cryptopp R w ins).failed
        = (R.entries.filter (is_bad (registry have_cryptopp) out)).length := by
  have hn := intersect_ptrs_nodup (registry have_cryptopp)
    (registry_ptrs_nodup have_cryptopp) R.entries
  have hf := found_nodup _ hn _ (hashes_keys_nodup R)
  have hfind : ∀ i ∈ R.entries,
      (intersect (registry have_cryptopp) R.entries).find? i.1
        = (registry have_cryptopp).find? i.1 :=
    fun i hi => intersect_find_of_mem _ _ i hi
  rw [verify_eq] at h ⊢
  by_cases he : (intersect (registry have_cryptopp) R.entries).isEmpty = true
  · rw [if_pos he] at h
    rcases h with h | h <;> simp at h
  · rw [if_neg he] at h ⊢
    by_cases hl : (verify_loop L (intersect (registry have_cryptopp) R.entries)
        (init_all (intersect (registry have_cryptopp) R.entries).entries w)
        (resize [] 8192) ins).1 = false
    · rw [if_pos hl] at h
      rcases h with h | h <;> simp at h
    · rw [if_neg hl]
      refine ⟨(verify_loop L (intersect (registry have_cryptopp) R.entries)
        (init_all (intersect (registry have_cryptopp) R.entries).entries w)
        (resize [] 8192) ins).2.1.out, ?_, ?_, ?_⟩
      · unfold verify_compare
        simp only [verify_fold _ _ _ hf, List.nil_append]
        apply List.map_congr_left
        intro i hi
        simp only [report_line, hfind i hi]
      · unfold verify_compare
        simp only [verify_fold _ _ _ hf, Nat.zero_add]
        congr 1
        apply List.filter_congr
        intro i hi
        simp only [is_good, hfind i hi]
      · unfold verify_compare
        simp only [verify_fold _ _ _ hf, Nat.zero_add]
        congr 1
        apply List.filter_congr
        intro i hi
        simp only [is_bad, hfind i hi]

theorem intersect_isEmpty_of_unsupported (hm_all : hashmap) (R : hashes_t)
    (h : ∀ n ∈ R.keys, hm_all.find? n = none) : (intersect hm_all R.entries).isEmpty = true := by
  cases he : (intersect hm_all R.entries).isEmpty with
  | true => rfl
  | false =>
    obtain ⟨n, hn, p, hp⟩ := (intersect_isEmpty_false_iff hm_all R.entries).1 he
    rw [h n hn] at hp
    cases hp

theorem verify_compare_ret_ne_one (L : hashlib) (hm : hashmap) (hashes : hashes_t)
    (w : statics L) (ins : istream) : (verify_compare L hm hashes w ins).ret ≠ 1 := by
  unfold verify_compare
  simp only
  split
  · decide
  · split <;> decide

theorem eat_chunks_no_finish {L : hashlib} (es : List (String × procid)) (w : statics L)
    (cs : List (List Nat)) :
    ∀ c ∈ new_calls w.calls (eat_chunks es (init_all es w) cs).calls,
      ∀ r, c.2 ≠ call.finish r := by
  rw [eat_chunks_calls, init_all_calls, List.append_assoc, new_calls_append]
  intro c hc r
  rcases List.mem_append.1 hc with h | h
  · obtain ⟨p, _, hp⟩ := List.mem_map.1 h
    rw [← hp]
    exact fun h2 => by cases h2
  · obtain ⟨a, _, ha⟩ := List.mem_flatMap.1 h
    obtain ⟨p, _, hp⟩ := List.mem_map.1 ha
    rw [← hp]
    exact fun h2 => by cases h2

theorem le64_explicit (n : Nat) :
    le64 n = [n % 256, n / 256 % 256, n / 65536 % 256, n / 16777216 % 256,
      n / 4294967296 % 256, n / 1099511627776 % 256, n / 281474976710656 % 256,
      n / 72057594037927936 % 256] := by
  have hr : List.range 8 = [0, 1, 2, 3, 4, 5, 6, 7] := by decide
  simp only [le64, hr, List.map]
  norm_num

theorem from_le_le64 (n : Nat) (h : n < 2 ^ 64) : from_le (le64 n) = n := by
  rw [le64_explicit]
  simp only [from_le, List.foldr]
  norm_num at h
  omega

theorem le64_inj (a b : Nat) (ha : a < 2 ^ 64) (hb : b < 2 ^ 64) (h : le64 a = le64 b) :
    a = b := by
  rw [← from_le_le64 a ha, ← from_le_le64 b hb, h]

theorem create_size64 (L : hashlib) (have_cryptopp : Bool) (prior : hashes_t)
    (w : statics L) (ins : istream) (hc : ins.clean = true) :
    (create L have_cryptopp prior w ins).hashes.find? "SIZE64"
      = some (le64 (ins.content.length % 2 ^ 64)) := by
  rw [create_find L have_cryptopp prior w ins hc "SIZE64" procid.sh
    (registry_find_of_mem _ _ (registry_has_size64 have_cryptopp))]
  have : dig w ins.content procid.sh = size64proc.digest (w.st procid.sh) ins.content := rfl
  rw [this, size64_digest]

theorem create_hashes_resets (L : hashlib) (have_cryptopp : Bool) (hres : L.resets)
    (prior1 prior2 : hashes_t) (w1 w2 : statics L) (in1 in2 : istream)
    (h1 : in1.clean = true) (h2 : in2.clean = true) (hS : in2.content = in1.content) :
    (create L have_cryptopp prior1 w1 in1).hashes
      = (create L have_cryptopp prior2 w2 in2).hashes := by
  apply smap.ext_entries
  rw [(create_clean L have_cryptopp prior1 w1 in1 h1).2,
    (create_clean L have_cryptopp prior2 w2 in2 h2).2, hS]
  apply List.map_congr_left
  intro i _
  have := dig_resets L hres w1 w2 in1.content i.2
  unfold dig at this
  rw [this]

theorem huge_in_clean : huge_in.clean = true := rfl

theorem huge_in_length : huge_in.content.length = 2 ^ 64 :=
  List.length_replicate _ _

theorem dig_size64_same_length {L : hashlib} (w0 w1 : statics L) (S1 S2 : List Nat)
    (h : S1.length = S2.length) : dig w0 S1 procid.sh = dig w1 S2 procid.sh := by
  have e1 : dig w0 S1 procid.sh = size64proc.digest (w0.st procid.sh) S1 := rfl
  have e2 : dig w1 S2 procid.sh = size64proc.digest (w1.st procid.sh) S2 := rfl
  rw [e1, e2, size64_digest, size64_digest, h]

theorem registry_size64_ptr (have_cryptopp : Bool) (j : String × procid)
    (hj : j ∈ (registry have_cryptopp).entries) (hn : j.1 = "SIZE64") : j.2 = procid.sh := by
  have h1 : ("SIZE64", j.2) ∈ (registry have_cryptopp).entries := by
    rw [← hn]
    exact hj
  exact entries_value_unique _ "SIZE64" j.2 procid.sh h1 (registry_has_size64 have_cryptopp)

theorem dig_empty {L : hashlib} (w : statics L) (p : procid) :
    dig w [] p = ((L.cls p).finish ((L.cls p).eat ((L.cls p).init (w.st p)) [])).1 := by
  unfold dig hash_proc.digest
  rw [chunks_short [] (by decide)]
  rfl

theorem verify_compare_ret_cases (L : hashlib) (hm : hashmap) (hashes : hashes_t)
    (w : statics L) (ins : istream) :
    (verify_compare L hm hashes w ins).ret = 0 ∨ (verify_compare L hm hashes w ins).ret = 2 ∨
    (verify_compare L hm hashes w ins).ret = 3 := by
  unfold verify_compare
  simp only
  split
  · exact Or.inr (Or.inr rfl)
  · split
    · exact Or.inl rfl
    · exact Or.inr (Or.inl rfl)

theorem full_chunks_length (n : Nat) : ∀ S : List Nat, S.length = n →
    ∀ c ∈ full_chunks S, c.length = 8192 := by
  induction n using Nat.strong_induction_on with
  | _ n ih =>
    intro S hS c hc
    by_cases h : 8192 ≤ S.length
    · rw [full_chunks_ge S h] at hc
      rcases List.mem_cons.1 hc with hc | hc
      · rw [hc, List.length_take]
        omega
      · exact ih (n - 8192) (by omega) (S.drop 8192) (by rw [List.length_drop]; omega) c hc
    · rw [full_chunks_lt S h] at hc
      cases hc

theorem last_chunk_length (n : Nat) : ∀ S : List Nat, S.length = n →
    (last_chunk S).length = S.length % 8192 := by
  induction n using Nat.strong_induction_on with
  | _ n ih =>
    intro S hS
    by_cases h : 8192 ≤ S.length
    · rw [last_chunk_ge S h,
        ih (n - 8192) (by omega) (S.drop 8192) (by rw [List.length_drop]; omega),
        List.length_drop]
      omega
    · rw [last_chunk_lt S h]
      omega

theorem chunks_flatten (n : Nat) : ∀ S : List Nat, S.length = n →
    (chunks S).flatten = S := by
  induction n using Nat.strong_induction_on with
  | _ n ih =>
    intro S hS
    by_cases h : 8192 ≤ S.length
    · have ih2 := ih (n - 8192) (by omega) (S.drop 8192) (by rw [List.length_drop]; omega)
      unfold chunks at ih2 ⊢
      rw [full_chunks_ge S h, last_chunk_ge S h, List.cons_append, List.flatten_cons, ih2,
        List.take_append_drop]
    · unfold chunks
      rw [full_chunks_lt S h, last_chunk_lt S h]
      simp

theorem finish_count_append (p : procid) (a b : List (procid × call)) :
    finish_count p (a ++ b) = finish_count p a + finish_count p b := by
  simp [finish_count, calls_on_append]

theorem finish_count_zero (p : procid) (l : List (procid × call))
    (h : ∀ c ∈ l, ∀ r, c.2 ≠ call.finish r) : finish_count p l = 0 := by
  unfold finish_count calls_on
  rw [List.length_eq_zero, List.filter_eq_nil_iff]
  intro c hc
  obtain ⟨x, hx, hxc⟩ := List.mem_map.1 hc
  have hx2 := (List.mem_filter.1 hx).1
  have := h x hx2
  rw [← hxc]
  cases hx3 : x.2 with
  | init => simp [call.is_finish]
  | eat a => simp [call.is_finish]
  | finish r => exact absurd hx3 (this r)

theorem verify_loop_true (L : hashlib) (hm : hashmap) :
    ∀ (n : Nat) (ins : istream) (w : statics L) (buf : List Nat),
      ins.content.length = n → (verify_loop L hm w buf ins).1 = true →
      ∃ cs a, (verify_loop L hm w buf ins).2.1
        = eat_all hm.entries (eat_chunks hm.entries w cs) a := by
  intro n
  induction n using Nat.strong_induction_on with
  | _ n ih =>
    intro ins w buf hlen hv
    rw [verify_loop] at hv ⊢
    by_cases h1 : (ins.read 8192).1.fail = false
    · simp only [dif_pos h1] at hv ⊢
      obtain ⟨cs, a, h⟩ := ih _ (hlen ▸ read_decreases ins h1) _ _ _ rfl hv
      exact ⟨store buf (ins.read 8192).2 :: cs, a, h⟩
    · by_cases h2 : (ins.read 8192).1.eof = true
      · simp only [dif_neg h1, if_pos h2]
        exact ⟨[], _, rfl⟩
      · simp [dif_neg h1, if_neg h2] at hv

theorem restrict_size_eq_intersect (hm_all : hashmap) (R : hashes_t) :
    (restrict hm_all R).size = (intersect hm_all R.entries).size := by
  have h1 : (keysOf (restrict hm_all R).entries).Nodup :=
    (restrict hm_all R).sorted.imp (fun h => key_lt_ne h)
  have h2 : (keysOf (intersect hm_all R.entries).entries).Nodup :=
    (intersect hm_all R.entries).sorted.imp (fun h => key_lt_ne h)
  have hperm : (keysOf (restrict hm_all R).entries).Perm
      (keysOf (intersect hm_all R.entries).entries) := by
    rw [List.perm_ext_iff_of_nodup h1 h2]
    intro k
    constructor
    · intro hk
      obtain ⟨i, hi, hik⟩ := List.mem_map.1 hk
      have hi2 := List.mem_filter.1 hi
      obtain ⟨p, hp⟩ := Option.isSome_iff_exists.1 hi2.2
      have hf := (intersect_find_iff hm_all R.entries i.1 p).2
        ⟨List.mem_map.2 ⟨i, hi2.1, rfl⟩, hp⟩
      have hmem := (smap.find?_eq_some_iff _ i.1 p).1 hf
      rw [← hik]
      exact List.mem_map.2 ⟨(i.1, p), hmem, rfl⟩
    · intro hk
      obtain ⟨e, he, hek⟩ := List.mem_map.1 hk
      have hf := (smap.find?_eq_some_iff _ e.1 e.2).2 he
      obtain ⟨hkeys, hp⟩ := (intersect_find_iff hm_all R.entries e.1 e.2).1 hf
      obtain ⟨i, hi, hie⟩ := List.mem_map.1 hkeys
      have hie2 : i.1 = e.1 := hie
      rw [← hek, ← hie2]
      refine List.mem_map.2 ⟨i, List.mem_filter.2 ⟨hi, ?_⟩, rfl⟩
      simp only [hie2, hp, Option.isSome_some]
  have := hperm.length_eq
  simpa [keysOf, smap.size] using this

theorem fed_calls_no_finish {L : hashlib} (es : List (String × procid)) (w : statics L)
    (cs : List (List Nat)) (a : List Nat) :
    ∃ l, (eat_all es (eat_chunks es (init_all es w) cs) a).calls = w.calls ++ l ∧
      ∀ c ∈ l, ∀ r, c.2 ≠ call.finish r := by
  refine ⟨(ptrsOf es).map (fun p => (p, call.init))
    ++ cs.flatMap (fun c => (ptrsOf es).map (fun p => (p, call.eat c)))
    ++ (ptrsOf es).map (fun p => (p, call.eat a)), ?_, ?_⟩
  · rw [eat_all_calls, eat_chunks_calls, init_all_calls]
    simp only [List.append_assoc]
  · intro c hc r
    rcases List.mem_append.1 hc with h | h
    · rcases List.mem_append.1 h with h | h
      · obtain ⟨p, _, hp⟩ := List.mem_map.1 h
        rw [← hp]
        exact fun h2 => by cases h2
      · obtain ⟨x, _, hx⟩ := List.mem_flatMap.1 h
        obtain ⟨p, _, hp⟩ := List.mem_map.1 hx
        rw [← hp]
        exact fun h2 => by cases h2
    · obtain ⟨p, _, hp⟩ := List.mem_map.1 h
      rw [← hp]
      exact fun h2 => by cases h2

/-- What holds when `verify` gets past its read loop: `ok + failed` is the size of the
working set, the result is 0 or 3, and `finish` has been called exactly once on each
processor of the working set. -/
theorem verify_phase_facts (L : hashlib) (have_cryptopp : Bool) (R : hashes_t)
    (w : statics L) (ins : istream)
    (hne : (intersect (registry have_cryptopp) R.entries).isEmpty = false)
    (hl : (verify_loop L (intersect (registry have_cryptopp) R.entries)
        (init_all (intersect (registry have_cryptopp) R.entries).entries w)
        (resize [] 8192) ins).1 = true) :
    (verify L have_cryptopp R w ins).ok + (verify L have_cryptopp R w ins).failed
      = (intersect (registry have_cryptopp) R.entries).size ∧
    1 ≤ (intersect (registry have_cryptopp) R.entries).size ∧
    ((verify L have_cryptopp R w ins).ret = 0 ∨ (verify L have_cryptopp R w ins).ret = 3) ∧
    ∀ p ∈ ptrsOf (intersect (registry have_cryptopp) R.entries).entries,
      finish_count p (new_calls w.calls (verify L have_cryptopp R w ins).procs.calls) = 1 := by
  have hn := intersect_ptrs_nodup (registry have_cryptopp)
    (registry_ptrs_nodup have_cryptopp) R.entries
  have hf := found_nodup _ hn _ (hashes_keys_nodup R)
  have hsize : 1 ≤ (intersect (registry have_cryptopp) R.entries).size := by
    cases he : (intersect (registry have_cryptopp) R.entries).entries with
    | nil => simp [smap.isEmpty, he] at hne
    | cons e t => simp [smap.size, he]
  obtain ⟨cs, a, hw⟩ := verify_loop_true L _ ins.content.length ins _ _ rfl hl
  obtain ⟨l, hcalls, hnf⟩ := fed_calls_no_finish
    (intersect (registry have_cryptopp) R.entries).entries w cs a
  have hsum : ((R.entries.foldl (verify_step L (intersect (registry have_cryptopp) R.entries))
        { procs := (verify_loop L (intersect (registry have_cryptopp) R.entries)
            (init_all (intersect (registry have_cryptopp) R.entries).entries w)
            (resize [] 8192) ins).2.1, ok := 0, failed := 0, log := [] }).ok
      + (R.entries.foldl (verify_step L (intersect (registry have_cryptopp) R.entries))
        { procs := (verify_loop L (intersect (registry have_cryptopp) R.entries)
            (init_all (intersect (registry have_cryptopp) R.entries).entries w)
            (resize [] 8192) ins).2.1, ok := 0, failed := 0, log := [] }).failed)
      = (intersect (registry have_cryptopp) R.entries).size := by
    simp only [verify_fold _ _ _ hf, Nat.zero_add]
    rw [good_bad_count, ← restrict_entries_eq, ← restrict_size_eq_intersect]
    rfl
  rw [verify_eq, hne, hl]
  simp only [Bool.false_eq_true, if_false, Bool.true_eq_false]
  refine ⟨hsum, hsize, ?_, ?_⟩
  · unfold verify_compare
    simp only
    split
    · exact Or.inr rfl
    · rename_i hfz
      split
      · exact Or.inl rfl
      · rename_i hoz
        exfalso
        have h1 := not_not.1 hfz
        have h2 := not_not.1 hoz
        rw [h1, h2] at hsum
        omega
  · intro p hp
    have hp2 := (found_intersect (registry have_cryptopp) R.entries p).2 hp
    unfold verify_compare
    simp only [verify_fold _ _ _ hf]
    rw [finish_found_calls _ hf, hw, hcalls, List.append_assoc, new_calls_append,
      finish_count_append, finish_count_zero p l hnf, Nat.zero_add]
    unfold finish_count
    rw [calls_on_each p _ hf, if_pos hp2]
    rfl

theorem unsupported_of_isEmpty (hm_all : hashmap) (R : hashes_t)
    (he : (intersect hm_all R.entries).isEmpty = true) :
    ∀ n ∈ R.keys, hm_all.find? n = none := by
  intro n hn
  cases h : hm_all.find? n with
  | none => rfl
  | some p =>
    have := (intersect_isEmpty_false_iff hm_all R.entries).2 ⟨n, hn, p, h⟩
    rw [he] at this
    cases this

theorem size64_feed_lt (cs : List (List Nat)) (s : Nat) (hs : s < 2 ^ 64) :
    size64proc.feed s cs < 2 ^ 64 := by
  induction cs generalizing s with
  | nil => exact hs
  | cons c t ih =>
    have : size64proc.feed s (c :: t) = size64proc.feed ((s + c.length) % 2 ^ 64) t := rfl
    rw [this]
    exact ih _ (Nat.mod_lt _ (by norm_num))

/-! ## The claims -/

/-- C1. Round trip: for every byte sequence (empty or not) read cleanly to its end,
`create` returns true, and `verify` on a clean stream over the same bytes against the
record just created returns 0, with every entry of the record counted GOOD: `ok` is the
number of entries, `failed` is 0, and the lines written are exactly one GOOD line per
name of the record.  The external digest classes are assumed to reset in `init()`. -/
theorem C1_roundtrip (L : hashlib) (have_cryptopp : Bool) (hres : L.resets)
    (prior : hashes_t) (w0 w1 : statics L) (in1 in2 : istream)
    (h1 : in1.clean = true) (h2 : in2.clean = true) (hS : in2.content = in1.content) :
    (create L have_cryptopp prior w0 in1).ret = true ∧
    (verify L have_cryptopp (create L have_cryptopp prior w0 in1).hashes w1 in2).ret = 0 ∧
    (verify L have_cryptopp (create L have_cryptopp prior w0 in1).hashes w1 in2).ok
      = (create L have_cryptopp prior w0 in1).hashes.size ∧
    (verify L have_cryptopp (create L have_cryptopp prior w0 in1).hashes w1 in2).failed = 0 ∧
    (verify L have_cryptopp (create L have_cryptopp prior w0 in1).hashes w1 in2).log
      = (create L have_cryptopp prior w0 in1).hashes.keys.map good_line := by
  have hcr := create_clean L have_cryptopp prior w0 in1 h1
  have hne := created_intersect_nonempty L have_cryptopp prior w0 in1 h1
  have hrep := report_created have_cryptopp (dig w0 in1.content) (dig w1 in2.content)
    (create L have_cryptopp prior w0 in1).hashes.entries hcr.2
  have hd : ∀ p, dig w0 in1.content p = dig w1 in2.content p := fun p => by
    rw [hS]
    exact dig_resets L hres w0 w1 in1.content p
  have hlen : (create L have_cryptopp prior w0 in1).hashes.entries.length
      = (registry have_cryptopp).entries.length := by
    rw [hcr.2, List.length_map]
  have hpos : (registry have_cryptopp).entries.length ≠ 0 := by
    intro h0
    have := registry_has_size64 have_cryptopp
    rw [List.length_eq_zero.1 h0] at this
    cases this
  rw [verify_clean L have_cryptopp _ w1 in2 h2 hne]
  simp only [hrep.1, hrep.2.1, hrep.2.2, hd, smap.size, smap.keys, hlen]
  simp only [ne_eq, not_true_eq_false, decide_False, decide_True, List.filter_false,
    List.filter_true, List.length_nil, if_true, if_false, hpos, not_false_eq_true]
  refine ⟨hcr.1, trivial, trivial, trivial, ?_⟩
  rw [hcr.2]
  simp [keysOf, List.map_map, Function.comp]

/-- C1 at the bytes `01 02 03`, with the Fletcher-16 checksum standing in for the
external digest classes. -/
theorem C1_roundtrip_witness :
    demo_lib.resets ∧ demo_in.clean = true ∧
    (create demo_lib false smap.empty demo_statics demo_in).ret = true ∧
    (verify demo_lib false (create demo_lib false smap.empty demo_statics demo_in).hashes
      demo_statics demo_in).ret = 0 :=
  have h := C1_roundtrip demo_lib false demo_lib_resets smap.empty demo_statics demo_statics
    demo_in demo_in rfl rfl rfl
  ⟨demo_lib_resets, rfl, h.1, h.2.1⟩

/-- C2. Verification decision: for a record with at least one supported name and a
stream read cleanly to its end, `verify` returns 3 exactly when some supported name's
stored output differs from its freshly finalized output, and returns 0 exactly when
every supported name's stored output equals it; so one mismatch gives 3 whatever the
other entries do.  The freshly finalized output of a supported name is `dig w S p`: the
calls `verify` makes on its processor `p` are `init`, `eat` of the chunks of the stream,
and `finish` returning that value. -/
theorem C2_verify_decision (L : hashlib) (have_cryptopp : Bool) (R : hashes_t)
    (w : statics L) (ins : istream) (hc : ins.clean = true)
    (hne : ∃ n ∈ R.keys, ∃ p, (registry have_cryptopp).find? n = some p) :
    ((verify L have_cryptopp R w ins).ret = 3 ↔
      ∃ n v p, (n, v) ∈ R.entries ∧ (registry have_cryptopp).find? n = some p ∧
        v ≠ dig w ins.content p) ∧
    ((verify L have_cryptopp R w ins).ret = 0 ↔
      ∀ n v p, (n, v) ∈ R.entries → (registry have_cryptopp).find? n = some p →
        v = dig w ins.content p) ∧
    (∀ n v p, (n, v) ∈ R.entries → (registry have_cryptopp).find? n = some p →
      calls_on p (new_calls w.calls (verify L have_cryptopp R w ins).procs.calls)
        = session ins.content (dig w ins.content p)) := by
  have hd := verify_decision L have_cryptopp R w ins hc hne
  refine ⟨hd.1, hd.2, ?_⟩
  intro n v p hn hp
  exact verify_calls_on L have_cryptopp R w ins hc p
    (mem_intersect_ptrs (registry have_cryptopp) R n v p hn hp)

/-- C2 at a record with a correct SIZE64 entry and an unsupported name, verified on the
bytes `01 02 03`. -/
theorem C2_verify_decision_witness :
    demo_in.clean = true ∧
    (∃ n ∈ demo_record.keys, ∃ p, (registry false).find? n = some p) ∧
    ((verify demo_lib false demo_record demo_statics demo_in).ret = 3 ↔
      ∃ n v p, (n, v) ∈ demo_record.entries ∧ (registry false).find? n = some p ∧
        v ≠ dig demo_statics demo_in.content p) :=
  ⟨rfl, ⟨"SIZE64", by decide, procid.sh, by decide⟩,
    (C2_verify_decision demo_lib false demo_record demo_statics demo_in rfl
      ⟨"SIZE64", by decide, procid.sh, by decide⟩).1⟩

/-- C3. `verify` is create-then-compare: for clean streams over the same bytes, a record
`R` and a name `n` that `R` holds (with value `v`) and the registry supports (processor
`p`), there is one output `out` such that `create` stores `out` under `n`, the calls
`verify` makes on `p` and the calls `create` makes on `p` are the same session
(`init`, `eat` of the same chunks in the same order, `finish` returning `out`), and
`verify` writes the GOOD line of `n` exactly when `v = out`.  The external digest
classes are assumed to reset in `init()`. -/
theorem C3_verify_is_create_then_compare (L : hashlib) (have_cryptopp : Bool)
    (hres : L.resets) (prior R : hashes_t) (w0 w1 : statics L) (in1 in2 : istream)
    (h1 : in1.clean = true) (h2 : in2.clean = true) (hS : in2.content = in1.content)
    (n : String) (v : List Nat) (p : procid) (hn : (n, v) ∈ R.entries)
    (hp : (registry have_cryptopp).find? n = some p) :
    ∃ out,
      (create L have_cryptopp prior w0 in1).hashes.find? n = some out ∧
      calls_on p (new_calls w1.calls (verify L have_cryptopp R w1 in2).procs.calls)
        = session in1.content out ∧
      calls_on p (new_calls w0.calls (create L have_cryptopp prior w0 in1).procs.calls)
        = session in1.content out ∧
      (good_line n ∈ (verify L have_cryptopp R w1 in2).log ↔ v = out) := by
  have hd : dig w1 in2.content p = dig w0 in1.content p := by
    rw [hS]
    exact dig_resets L hres w1 w0 in1.content p
  have hmem := mem_intersect_ptrs (registry have_cryptopp) R n v p hn hp
  have hne : (intersect (registry have_cryptopp) R.entries).isEmpty = false :=
    (intersect_isEmpty_false_iff _ _).2 ⟨n, List.mem_map.2 ⟨(n, v), hn, rfl⟩, p, hp⟩
  refine ⟨dig w0 in1.content p, create_find L have_cryptopp prior w0 in1 h1 n p hp, ?_, ?_, ?_⟩
  · rw [verify_calls_on L have_cryptopp R w1 in2 h2 p hmem, hd, hS]
  · exact create_calls_on L have_cryptopp prior w0 in1 h1 p
      ((mem_ptrs_iff _ p).2 ⟨n, hp⟩)
  · rw [verify_clean L have_cryptopp R w1 in2 h2 hne]
    simp only [List.mem_map]
    constructor
    · rintro ⟨i, hi, hline⟩
      obtain ⟨hin, q, hq, hv⟩ := (report_line_good_iff _ _ i n).1 hline
      have hi2 : (n, i.2) ∈ R.entries := by
        rw [← hin]
        exact hi
      have hv2 : i.2 = v := entries_value_unique R n i.2 v hi2 hn
      rw [hin, hp] at hq
      have hq2 : p = q := Option.some.inj hq
      rw [← hv2, hv, ← hq2, hd]
    · intro hv
      refine ⟨(n, v), hn, (report_line_good_iff _ _ (n, v) n).2 ⟨rfl, p, hp, ?_⟩⟩
      rw [hd]
      exact hv

/-- C3 at the name SIZE64 and the bytes `01 02 03`. -/
theorem C3_verify_is_create_then_compare_witness :
    demo_lib.resets ∧ demo_in.clean = true ∧
    ("SIZE64", [3, 0, 0, 0, 0, 0, 0, 0]) ∈ demo_record.entries ∧
    (registry false).find? "SIZE64" = some procid.sh ∧
    ∃ out,
      (create demo_lib false smap.empty demo_statics demo_in).hashes.find? "SIZE64" = some out ∧
      calls_on procid.sh (new_calls demo_statics.calls
        (verify demo_lib false demo_record demo_statics demo_in).procs.calls)
        = session demo_in.content out ∧
      calls_on procid.sh (new_calls demo_statics.calls
        (create demo_lib false smap.empty demo_statics demo_in).procs.calls)
        = session demo_in.content out ∧
      (good_line "SIZE64" ∈ (verify demo_lib false demo_record demo_statics demo_in).log
        ↔ [3, 0, 0, 0, 0, 0, 0, 0] = out) :=
  ⟨demo_lib_resets, rfl, by decide, by decide,
    C3_verify_is_create_then_compare demo_lib false demo_lib_resets smap.empty demo_record
      demo_statics demo_statics demo_in demo_in rfl rfl rfl "SIZE64" [3, 0, 0, 0, 0, 0, 0, 0]
      procid.sh (by decide) (by decide)⟩

/-- C4. SIZE64 value: for a stream read cleanly to its end, the record made by `create`
holds under "SIZE64" exactly the 8 bytes `b0..b7` with
`b_i = ((|S| mod 2^64) / 256^i) mod 256` (the byte count as a 64-bit integer, least
significant byte first), and this length 8 is what `size64proc::size()` returns. -/
theorem C4_size64_value (L : hashlib) (have_cryptopp : Bool) (prior : hashes_t)
    (w : statics L) (ins : istream) (hc : ins.clean = true) :
    (create L have_cryptopp prior w ins).hashes.find? "SIZE64"
      = some ((List.range 8).map (fun i => ins.content.length % 2 ^ 64 / 256 ^ i % 256)) ∧
    ((List.range 8).map (fun i => ins.content.length % 2 ^ 64 / 256 ^ i % 256)).length = 8 ∧
    ∀ s : Nat, size64proc.size s = 8 := by
  refine ⟨?_, by simp, fun _ => rfl⟩
  rw [create_find L have_cryptopp prior w ins hc "SIZE64" procid.sh
    (registry_find_of_mem _ _ (registry_has_size64 have_cryptopp))]
  have : dig w ins.content procid.sh = size64proc.digest (w.st procid.sh) ins.content := rfl
  rw [this, size64_digest]
  rfl

/-- C4 at the bytes `01 02 03`: the SIZE64 entry is `03 00 00 00 00 00 00 00`. -/
theorem C4_size64_value_witness :
    demo_in.clean = true ∧
    (create demo_lib false smap.empty demo_statics demo_in).hashes.find? "SIZE64"
      = some [3, 0, 0, 0, 0, 0, 0, 0] :=
  ⟨rfl, (C4_size64_value demo_lib false smap.empty demo_statics demo_in rfl).1.trans
    (by decide)⟩

/-- C6 fails as stated: for a record whose only name is unsupported, `verify` returns
at once and writes no "not supported" line for that name. -/
theorem C6_counterexample :
    "WHIRLPOOL" ∈ unknown_record.keys ∧ (registry false).find? "WHIRLPOOL" = none ∧
    unsupported_line "WHIRLPOOL" ∉ (verify demo_lib false unknown_record demo_statics demo_in).log := by
  refine ⟨by decide, by decide, ?_⟩
  rw [verify_empty demo_lib false unknown_record demo_statics demo_in (by decide)]
  decide

/-- C6, as the code has it. Unsupported names never change the outcome: for every
stream and record, `verify` returns the same code on the record and on the record
restricted to the supported names.  Whenever `verify` gets to its comparison loop (it
returns 0 or 3), each name of the record that the registry lacks has its "not
supported" line, has neither a GOOD nor a BAD line, and is counted by neither `ok` nor
`failed` (their sum is the number of supported names).  For a clean stream, a record
with at least one supported name whose supported entries all match yields 0. -/
theorem C6_unsupported_names (L : hashlib) (have_cryptopp : Bool) (R : hashes_t)
    (w : statics L) (ins : istream) :
    (verify L have_cryptopp (restrict (registry have_cryptopp) R) w ins).ret
      = (verify L have_cryptopp R w ins).ret ∧
    (((verify L have_cryptopp R w ins).ret = 0 ∨ (verify L have_cryptopp R w ins).ret = 3) →
      (∀ n ∈ R.keys, (registry have_cryptopp).find? n = none →
        unsupported_line n ∈ (verify L have_cryptopp R w ins).log ∧
        good_line n ∉ (verify L have_cryptopp R w ins).log ∧
        bad_line n ∉ (verify L have_cryptopp R w ins).log) ∧
      (verify L have_cryptopp R w ins).ok + (verify L have_cryptopp R w ins).failed
        = (restrict (registry have_cryptopp) R).size) ∧
    (ins.clean = true →
      (∃ n ∈ R.keys, ∃ p, (registry have_cryptopp).find? n = some p) →
      (∀ n v p, (n, v) ∈ R.entries → (registry have_cryptopp).find? n = some p →
        v = dig w ins.content p) →
      (verify L have_cryptopp R w ins).ret = 0) := by
  refine ⟨verify_restrict_ret L have_cryptopp R w ins, ?_, ?_⟩
  · intro hret
    obtain ⟨out, hlog, hok, hfailed⟩ := verify_compare_phase L have_cryptopp R w ins hret
    refine ⟨?_, ?_⟩
    · intro n hn hnone
      obtain ⟨i, hi, hin⟩ := List.mem_map.1 hn
      have hin2 : i.1 = n := hin
      rw [hlog]
      refine ⟨List.mem_map.2 ⟨i, hi, ?_⟩, ?_, ?_⟩
      · simp only [report_line, hin2, hnone]
      · intro hmem
        obtain ⟨j, _, hline⟩ := List.mem_map.1 hmem
        obtain ⟨hj1, p, hp, _⟩ := (report_line_good_iff _ _ j n).1 hline
        rw [hj1, hnone] at hp
        cases hp
      · intro hmem
        obtain ⟨j, _, hline⟩ := List.mem_map.1 hmem
        obtain ⟨hj1, p, hp, _⟩ := (report_line_bad_iff _ _ j n).1 hline
        rw [hj1, hnone] at hp
        cases hp
    · rw [hok, hfailed, good_bad_count]
      rfl
  · intro hc hne hall
    exact (verify_decision L have_cryptopp R w ins hc hne).2.2 hall

/-- C6 as amended, at a record with a matching SIZE64 entry and an unsupported name:
`verify` returns 0 and reports the unsupported name. -/
theorem C6_unsupported_names_witness :
    demo_in.clean = true ∧
    (verify demo_lib false demo_record demo_statics demo_in).ret = 0 ∧
    unsupported_line "WHIRLPOOL" ∈ (verify demo_lib false demo_record demo_statics demo_in).log :=
  have h := C6_unsupported_names demo_lib false demo_record demo_statics demo_in
  have h0 : (verify demo_lib false demo_record demo_statics demo_in).ret = 0 :=
    h.2.2 rfl ⟨"SIZE64", by decide, procid.sh, by decide⟩ (by
      intro n v p hmem hp
      have hent : demo_record.entries
          = [("SIZE64", [3, 0, 0, 0, 0, 0, 0, 0]), ("WHIRLPOOL", [7])] := by decide
      have hmem2 : (n, v) = ("SIZE64", [3, 0, 0, 0, 0, 0, 0, 0]) ∨ (n, v) = ("WHIRLPOOL", [7]) := by
        rw [hent] at hmem
        simpa using hmem
      rcases hmem2 with h1 | h1
      · cases h1
        have hp2 : p = procid.sh := by
          have : (registry false).find? "SIZE64" = some procid.sh := by decide
          rw [this] at hp
          exact (Option.some.inj hp).symm
        subst hp2
        have e : dig demo_statics demo_in.content procid.sh
            = size64proc.digest (demo_statics.st procid.sh) demo_in.content := rfl
        rw [e, size64_digest]
        decide
      · cases h1
        have : (registry false).find? "WHIRLPOOL" = none := by decide
        rw [this] at hp
        cases hp)
  ⟨rfl, h0, ((h.2.1 (Or.inl h0)).1 "WHIRLPOOL" (by decide) (by decide)).1⟩

/-- C7. No verifiable digest: for a record that shares no name with the registry (the
empty record included) and any stream, `verify` returns 2 and leaves the stream and the
static processors exactly as they were: no `read` was made on the stream (its position,
flags and read count are unchanged) and no `init`, `eat` or `finish` was called (every
processor state and the call history are unchanged).  The only line written is the
notice. -/
theorem C7_no_verifiable (L : hashlib) (have_cryptopp : Bool) (R : hashes_t)
    (w : statics L) (ins : istream)
    (h : ∀ n ∈ R.keys, (registry have_cryptopp).find? n = none) :
    (verify L have_cryptopp R w ins).ret = 2 ∧
    (verify L have_cryptopp R w ins).ins = ins ∧
    (verify L have_cryptopp R w ins).procs = w ∧
    (verify L have_cryptopp R w ins).log = [notice_line] := by
  rw [verify_empty L have_cryptopp R w ins (intersect_isEmpty_of_unsupported _ R h)]
  exact ⟨rfl, rfl, rfl, rfl⟩

/-- C7 at a record whose only name is unsupported. -/
theorem C7_no_verifiable_witness :
    (∀ n ∈ unknown_record.keys, (registry true).find? n = none) ∧
    (verify demo_lib true unknown_record demo_statics demo_in).ret = 2 ∧
    (verify demo_lib true unknown_record demo_statics demo_in).ins = demo_in ∧
    (verify demo_lib true unknown_record demo_statics demo_in).procs = demo_statics :=
  have hk : ∀ n ∈ unknown_record.keys, (registry true).find? n = none := by
    intro n hn
    have hkeys : unknown_record.keys = ["WHIRLPOOL"] := by decide
    rw [hkeys] at hn
    rw [List.mem_singleton.1 hn]
    decide
  have h := C7_no_verifiable demo_lib true unknown_record demo_statics demo_in hk
  ⟨hk, h.1, h.2.1, h.2.2.1⟩

/-- C8. Read error in `verify`: `verify` returns 1 exactly when the record has a
supported name and the reads of the stream fail with a hard error (neither a full
8192-byte chunk nor end of file) after some number `k` of full chunks; and when it
returns 1 it has written no line at all and has called `finish` on no processor. -/
theorem C8_verify_read_error (L : hashlib) (have_cryptopp : Bool) (R : hashes_t)
    (w : statics L) (ins : istream) :
    ((verify L have_cryptopp R w ins).ret = 1 ↔
      (∃ n ∈ R.keys, ∃ p, (registry have_cryptopp).find? n = some p) ∧
      ∃ k, ins.fails_after k = true) ∧
    ((verify L have_cryptopp R w ins).ret = 1 →
      (verify L have_cryptopp R w ins).log = [] ∧
      ∀ c ∈ new_calls w.calls (verify L have_cryptopp R w ins).procs.calls,
        ∀ r, c.2 ≠ call.finish r) := by
  rw [verify_eq]
  by_cases he : (intersect (registry have_cryptopp) R.entries).isEmpty = true
  · rw [if_pos he]
    have hno : ¬ ∃ n ∈ R.keys, ∃ p, (registry have_cryptopp).find? n = some p := by
      intro hex
      have := (intersect_isEmpty_false_iff _ _).2 hex
      rw [he] at this
      cases this
    refine ⟨⟨fun h => by simp at h, fun h => absurd h.1 hno⟩, fun h => by simp at h⟩
  · rw [if_neg he]
    have hex : ∃ n ∈ R.keys, ∃ p, (registry have_cryptopp).find? n = some p :=
      (intersect_isEmpty_false_iff _ _).1 (by simpa using he)
    by_cases hl : (verify_loop L (intersect (registry have_cryptopp) R.entries)
        (init_all (intersect (registry have_cryptopp) R.entries).entries w)
        (resize [] 8192) ins).1 = false
    · rw [if_pos hl]
      obtain ⟨k, hk⟩ := verify_loop_false L _ ins.content.length ins _ _ rfl hl
      obtain ⟨cs, s, hcs⟩ := verify_loop_fails L
        (intersect (registry have_cryptopp) R.entries) k ins
        (init_all (intersect (registry have_cryptopp) R.entries).entries w)
        (resize [] 8192) hk
      refine ⟨⟨fun _ => ⟨hex, k, hk⟩, fun _ => rfl⟩, fun _ => ⟨rfl, ?_⟩⟩
      simp only [hcs]
      exact eat_chunks_no_finish _ w cs
    · rw [if_neg hl]
      have hne := verify_compare_ret_ne_one L (intersect (registry have_cryptopp) R.entries) R
        (verify_loop L (intersect (registry have_cryptopp) R.entries)
          (init_all (intersect (registry have_cryptopp) R.entries).entries w)
          (resize [] 8192) ins).2.1
        (verify_loop L (intersect (registry have_cryptopp) R.entries)
          (init_all (intersect (registry have_cryptopp) R.entries).entries w)
          (resize [] 8192) ins).2.2
      refine ⟨⟨fun h => absurd h hne, ?_⟩, fun h => absurd h hne⟩
      rintro ⟨_, k, hk⟩
      obtain ⟨cs, s, hcs⟩ := verify_loop_fails L
        (intersect (registry have_cryptopp) R.entries) k ins
        (init_all (intersect (registry have_cryptopp) R.entries).entries w)
        (resize [] 8192) hk
      rw [hcs] at hl
      exact absurd rfl hl

/-- C8 at a stream whose source fails with a device error after three bytes. -/
theorem C8_verify_read_error_witness :
    (∃ n ∈ demo_record.keys, ∃ p, (registry false).find? n = some p) ∧
    broken_in.fails_after 0 = true ∧
    (verify demo_lib false demo_record demo_statics broken_in).ret = 1 ∧
    (verify demo_lib false demo_record demo_statics broken_in).log = [] :=
  have hex : ∃ n ∈ demo_record.keys, ∃ p, (registry false).find? n = some p :=
    ⟨"SIZE64", by decide, procid.sh, by decide⟩
  have h := C8_verify_read_error demo_lib false demo_record demo_statics broken_in
  have h1 : (verify demo_lib false demo_record demo_statics broken_in).ret = 1 :=
    h.1.2 ⟨hex, 0, by decide⟩
  ⟨hex, by decide, h1, (h.2 h1).1⟩

/-- C9. Read error in `create`: whatever the record held before, when the reads of the
stream fail with a hard error (neither a full chunk nor end of file) after `k` full
chunks, `create` returns false and leaves the record empty. -/
theorem C9_create_read_error (L : hashlib) (have_cryptopp : Bool) (prior : hashes_t)
    (w : statics L) (ins : istream) (k : Nat) (h : ins.fails_after k = true) :
    (create L have_cryptopp prior w ins).ret = false ∧
    (create L have_cryptopp prior w ins).hashes = smap.empty ∧
    (create L have_cryptopp prior w ins).hashes.entries = [] := by
  have hcreate : create L have_cryptopp prior w ins
      = create_loop L (registry have_cryptopp) prior.clear
          (init_all (registry have_cryptopp).entries w) (resize [] 8192) ins := rfl
  obtain ⟨cs, s, hcs⟩ := create_loop_fails L (registry have_cryptopp) prior.clear k ins
    (init_all (registry have_cryptopp).entries w) (resize [] 8192) h
  rw [hcreate, hcs]
  exact ⟨rfl, rfl, rfl⟩

/-- C9 at a stream whose source fails with a device error after three bytes, with a
non-empty prior record. -/
theorem C9_create_read_error_witness :
    broken_in.fails_after 0 = true ∧
    (create demo_lib false demo_record demo_statics broken_in).ret = false ∧
    (create demo_lib false demo_record demo_statics broken_in).hashes.entries = [] :=
  have h := C9_create_read_error demo_lib false demo_record demo_statics broken_in 0
    (by decide)
  ⟨by decide, h.1, h.2.2⟩

/-- C10. Record shape after `create`: whatever the record held before, for a stream
read cleanly to its end `create` returns true; the keys of the record are exactly the
names of the registry; under each registry name the record holds the output its
processor has just finalized; any other name has no entry; and the record is the one
`create` makes from an empty record. -/
theorem C10_record_shape (L : hashlib) (have_cryptopp : Bool) (prior : hashes_t)
    (w : statics L) (ins : istream) (hc : ins.clean = true) :
    (create L have_cryptopp prior w ins).ret = true ∧
    (create L have_cryptopp prior w ins).hashes.keys = (registry have_cryptopp).keys ∧
    (∀ n p, (registry have_cryptopp).find? n = some p →
      (create L have_cryptopp prior w ins).hashes.find? n = some (dig w ins.content p)) ∧
    (∀ n, (registry have_cryptopp).find? n = none →
      (create L have_cryptopp prior w ins).hashes.find? n = none) ∧
    (create L have_cryptopp prior w ins).hashes
      = (create L have_cryptopp smap.empty w ins).hashes := by
  have hcr := create_clean L have_cryptopp prior w ins hc
  have hcr0 := create_clean L have_cryptopp smap.empty w ins hc
  have hkeys : (create L have_cryptopp prior w ins).hashes.keys
      = (registry have_cryptopp).keys := by
    simp only [smap.keys, hcr.2, keysOf, List.map_map]
    rfl
  refine ⟨hcr.1, hkeys, ?_, ?_, ?_⟩
  · intro n p hp
    exact create_find L have_cryptopp prior w ins hc n p hp
  · intro n hn
    have h1 : n ∉ keysOf (registry have_cryptopp).entries :=
      (lookupEntry_eq_none_iff _ n).1 hn
    exact (lookupEntry_eq_none_iff _ n).2 (by
      have : keysOf (create L have_cryptopp prior w ins).hashes.entries
          = keysOf (registry have_cryptopp).entries := hkeys
      rw [this]
      exact h1)
  · apply smap.ext_entries
    rw [hcr.2, hcr0.2]

/-- C10 at the bytes `01 02 03`, without the optional digests, over a prior record
holding an unsupported name. -/
theorem C10_record_shape_witness :
    demo_in.clean = true ∧
    (create demo_lib false demo_record demo_statics demo_in).ret = true ∧
    (create demo_lib false demo_record demo_statics demo_in).hashes.keys
      = ["CUBE512", "SIZE64"] :=
  have h := C10_record_shape demo_lib false demo_record demo_statics demo_in rfl
  ⟨rfl, h.1, h.2.1.trans (by decide)⟩

/-- C11. Determinism of `create`: two runs on clean streams over the same bytes give the
same record, whatever each run found in the record and whatever state (and call
history) the static processors were in, provided the external digest classes reset in
`init()`. -/
theorem C11_create_deterministic (L : hashlib) (have_cryptopp : Bool) (hres : L.resets)
    (prior1 prior2 : hashes_t) (w1 w2 : statics L) (in1 in2 : istream)
    (h1 : in1.clean = true) (h2 : in2.clean = true) (hS : in2.content = in1.content) :
    (create L have_cryptopp prior1 w1 in1).ret = true ∧
    (create L have_cryptopp prior2 w2 in2).ret = true ∧
    (create L have_cryptopp prior1 w1 in1).hashes
      = (create L have_cryptopp prior2 w2 in2).hashes :=
  ⟨(create_clean L have_cryptopp prior1 w1 in1 h1).1,
    (create_clean L have_cryptopp prior2 w2 in2 h2).1,
    create_hashes_resets L have_cryptopp hres prior1 prior2 w1 w2 in1 in2 h1 h2 hS⟩

/-- C11 at the bytes `01 02 03`: a first run from an empty record and fresh processors,
a second run over a non-empty record with the processors as a `verify` aborted by a
read error left them. -/
theorem C11_create_deterministic_witness :
    demo_lib.resets ∧ demo_in.clean = true ∧
    (create demo_lib false smap.empty demo_statics demo_in).hashes
      = (create demo_lib false demo_record
          (verify demo_lib false demo_record demo_statics broken_in).procs demo_in).hashes :=
  ⟨demo_lib_resets, rfl,
    (C11_create_deterministic demo_lib false demo_lib_resets smap.empty demo_record
      demo_statics (verify demo_lib false demo_record demo_statics broken_in).procs
      demo_in demo_in rfl rfl rfl).2.2⟩

/-- C12 fails as stated: the empty stream and a stream of `2 ^ 64` zero bytes have
different lengths and the same SIZE64 entry, because the counter is a `uint64_t`. -/
theorem C12_counterexample :
    (istream.ofBytes []).content.length ≠ huge_in.content.length ∧
    (create demo_lib false smap.empty demo_statics (istream.ofBytes [])).hashes.find? "SIZE64"
      = (create demo_lib false smap.empty demo_statics huge_in).hashes.find? "SIZE64" := by
  refine ⟨?_, ?_⟩
  · rw [huge_in_length]
    exact fun h => absurd h (by decide)
  · rw [create_size64 _ _ _ _ _ (rfl : (istream.ofBytes []).clean = true),
      create_size64 _ _ _ _ _ huge_in_clean, huge_in_length, Nat.mod_self]
    rfl

/-- C12, as the code has it. Length sensitivity: for two streams read cleanly to their
ends, the SIZE64 entries of the records `create` makes differ exactly when the lengths
differ modulo `2 ^ 64`; in particular they differ whenever the lengths differ and both
are below `2 ^ 64`. -/
theorem C12_length_sensitivity (L : hashlib) (have_cryptopp : Bool)
    (prior1 prior2 : hashes_t) (w1 w2 : statics L) (in1 in2 : istream)
    (h1 : in1.clean = true) (h2 : in2.clean = true) :
    ((create L have_cryptopp prior1 w1 in1).hashes.find? "SIZE64"
        ≠ (create L have_cryptopp prior2 w2 in2).hashes.find? "SIZE64"
      ↔ in1.content.length % 2 ^ 64 ≠ in2.content.length % 2 ^ 64) ∧
    (in1.content.length < 2 ^ 64 → in2.content.length < 2 ^ 64 →
      in1.content.length ≠ in2.content.length →
      (create L have_cryptopp prior1 w1 in1).hashes.find? "SIZE64"
        ≠ (create L have_cryptopp prior2 w2 in2).hashes.find? "SIZE64") := by
  rw [create_size64 L have_cryptopp prior1 w1 in1 h1,
    create_size64 L have_cryptopp prior2 w2 in2 h2]
  have key : le64 (in1.content.length % 2 ^ 64) = le64 (in2.content.length % 2 ^ 64)
      ↔ in1.content.length % 2 ^ 64 = in2.content.length % 2 ^ 64 :=
    ⟨le64_inj _ _ (Nat.mod_lt _ (by norm_num)) (Nat.mod_lt _ (by norm_num)),
      fun h => by rw [h]⟩
  refine ⟨?_, ?_⟩
  · rw [Ne, Option.some.injEq, key]
  · intro ha hb hne
    rw [Ne, Option.some.injEq, key, Nat.mod_eq_of_lt ha, Nat.mod_eq_of_lt hb]
    exact hne

/-- C12 as amended, at the bytes `01 02 03` and the empty stream. -/
theorem C12_length_sensitivity_witness :
    demo_in.clean = true ∧ (istream.ofBytes []).clean = true ∧
    (create demo_lib false smap.empty demo_statics demo_in).hashes.find? "SIZE64"
      ≠ (create demo_lib false smap.empty demo_statics (istream.ofBytes [])).hashes.find? "SIZE64" :=
  ⟨rfl, rfl,
    (C12_length_sensitivity demo_lib false smap.empty smap.empty demo_statics demo_statics
      demo_in (istream.ofBytes []) rfl rfl).2 (by decide) (by decide) (by decide)⟩

/-- C13. SIZE64 ignores content: for clean streams over `S` and `S'` of equal length,
`verify` on `S'` against the record `create` made from `S` writes the GOOD line of
SIZE64 and not its BAD line; and if it returns 3, some other name of the registry has a
BAD line, its processor giving `S` and `S'` different digests. -/
theorem C13_size64_ignores_content (L : hashlib) (have_cryptopp : Bool)
    (prior : hashes_t) (w0 w1 : statics L) (in1 in2 : istream)
    (h1 : in1.clean = true) (h2 : in2.clean = true)
    (hlen : in1.content.length = in2.content.length) :
    good_line "SIZE64" ∈
      (verify L have_cryptopp (create L have_cryptopp prior w0 in1).hashes w1 in2).log ∧
    bad_line "SIZE64" ∉
      (verify L have_cryptopp (create L have_cryptopp prior w0 in1).hashes w1 in2).log ∧
    ((verify L have_cryptopp (create L have_cryptopp prior w0 in1).hashes w1 in2).ret = 3 →
      ∃ j ∈ (registry have_cryptopp).entries, j.1 ≠ "SIZE64" ∧
        dig w0 in1.content j.2 ≠ dig w1 in2.content j.2 ∧
        bad_line j.1 ∈
          (verify L have_cryptopp (create L have_cryptopp prior w0 in1).hashes w1 in2).log) := by
  have hv := verify_created L have_cryptopp prior w0 w1 in1 in2 h1 h2
  have hsz := dig_size64_same_length w0 w1 in1.content in2.content hlen
  rw [hv.1]
  refine ⟨?_, ?_, ?_⟩
  · refine List.mem_map.2 ⟨("SIZE64", procid.sh), registry_has_size64 have_cryptopp, ?_⟩
    simp only [if_pos hsz]
  · intro hmem
    obtain ⟨j, hj, hline⟩ := List.mem_map.1 hmem
    by_cases hd : dig w0 in1.content j.2 = dig w1 in2.content j.2
    · simp only [if_pos hd] at hline
      exact bad_ne_good _ _ hline.symm
    · simp only [if_neg hd] at hline
      have hn := bad_line_inj _ _ hline
      have hp := registry_size64_ptr have_cryptopp j hj hn
      rw [hp] at hd
      exact hd hsz
  · intro hret
    rw [hv.2.2.2] at hret
    by_cases hex : ∃ j ∈ (registry have_cryptopp).entries,
        dig w0 in1.content j.2 ≠ dig w1 in2.content j.2
    · obtain ⟨j, hj, hd⟩ := hex
      refine ⟨j, hj, ?_, hd, List.mem_map.2 ⟨j, hj, ?_⟩⟩
      · intro hn
        have hp := registry_size64_ptr have_cryptopp j hj hn
        rw [hp] at hd
        exact hd hsz
      · simp only [if_neg hd]
    · rw [if_neg hex] at hret
      exact absurd hret (by decide)

/-- C13 at the bytes `01 02 03` and `01 02 04`. -/
theorem C13_size64_ignores_content_witness :
    demo_in.clean = true ∧ demo_in_changed.clean = true ∧
    demo_in.content.length = demo_in_changed.content.length ∧
    good_line "SIZE64" ∈
      (verify demo_lib false (create demo_lib false smap.empty demo_statics demo_in).hashes
        demo_statics demo_in_changed).log :=
  ⟨rfl, rfl, rfl,
    (C13_size64_ignores_content demo_lib false smap.empty demo_statics demo_statics demo_in
      demo_in_changed rfl rfl rfl).1⟩

/-- C14. Empty stream: for a clean stream with no bytes, `create` returns true, the keys
of the record are the names of the registry, under each name is what the processor's
`finish()` returns after `init()` and one `eat` of a zero-length chunk, and the SIZE64
entry is 8 zero bytes. -/
theorem C14_empty_stream (L : hashlib) (have_cryptopp : Bool) (prior : hashes_t)
    (w : statics L) (ins : istream) (hc : ins.clean = true) (he : ins.content = []) :
    (create L have_cryptopp prior w ins).ret = true ∧
    (create L have_cryptopp prior w ins).hashes.keys = (registry have_cryptopp).keys ∧
    (∀ n p, (registry have_cryptopp).find? n = some p →
      (create L have_cryptopp prior w ins).hashes.find? n
        = some ((L.cls p).finish ((L.cls p).eat ((L.cls p).init (w.st p)) [])).1) ∧
    (∀ p, p ∈ ptrsOf (registry have_cryptopp).entries →
      calls_on p (new_calls w.calls (create L have_cryptopp prior w ins).procs.calls)
        = [call.init, call.eat [],
            call.finish ((L.cls p).finish ((L.cls p).eat ((L.cls p).init (w.st p)) [])).1]) ∧
    (create L have_cryptopp prior w ins).hashes.find? "SIZE64"
      = some [0, 0, 0, 0, 0, 0, 0, 0] := by
  have hcr := create_clean L have_cryptopp prior w ins hc
  refine ⟨hcr.1, ?_, ?_, ?_, ?_⟩
  · simp only [smap.keys, hcr.2, keysOf, List.map_map]
    rfl
  · intro n p hp
    rw [create_find L have_cryptopp prior w ins hc n p hp, he, dig_empty]
  · intro p hp
    rw [create_calls_on L have_cryptopp prior w ins hc p hp, he, dig_empty, session,
      chunks_short [] (by decide)]
    rfl
  · rw [create_size64 L have_cryptopp prior w ins hc, he]
    decide

/-- C14 at a fresh empty stream. -/
theorem C14_empty_stream_witness :
    (istream.ofBytes []).clean = true ∧ (istream.ofBytes []).content = [] ∧
    (create demo_lib false smap.empty demo_statics (istream.ofBytes [])).ret = true ∧
    (create demo_lib false smap.empty demo_statics (istream.ofBytes [])).hashes.find? "SIZE64"
      = some [0, 0, 0, 0, 0, 0, 0, 0] :=
  have h := C14_empty_stream demo_lib false smap.empty demo_statics (istream.ofBytes [])
    rfl rfl
  ⟨rfl, rfl, h.1, h.2.2.2.2⟩

/-- C15. `verify` never mutates the record: for every record and stream, the member
`hashes` after the call is the record it was before the call (same keys, same values),
and the returned code is one of 0, 1, 2, 3. -/
theorem C15_verify_keeps_record (L : hashlib) (have_cryptopp : Bool) (R : hashes_t)
    (w : statics L) (ins : istream) :
    (verify L have_cryptopp R w ins).hashes = R ∧
    (verify L have_cryptopp R w ins).hashes.entries = R.entries ∧
    ((verify L have_cryptopp R w ins).ret = 0 ∨ (verify L have_cryptopp R w ins).ret = 1 ∨
     (verify L have_cryptopp R w ins).ret = 2 ∨ (verify L have_cryptopp R w ins).ret = 3) := by
  rw [verify_eq]
  by_cases he : (intersect (registry have_cryptopp) R.entries).isEmpty = true
  · rw [if_pos he]
    exact ⟨rfl, rfl, Or.inr (Or.inr (Or.inl rfl))⟩
  · rw [if_neg he]
    by_cases hl : (verify_loop L (intersect (registry have_cryptopp) R.entries)
        (init_all (intersect (registry have_cryptopp) R.entries).entries w)
        (resize [] 8192) ins).1 = false
    · rw [if_pos hl]
      exact ⟨rfl, rfl, Or.inr (Or.inl rfl)⟩
    · rw [if_neg hl]
      refine ⟨rfl, rfl, ?_⟩
      rcases verify_compare_ret_cases L (intersect (registry have_cryptopp) R.entries) R
        (verify_loop L (intersect (registry have_cryptopp) R.entries)
          (init_all (intersect (registry have_cryptopp) R.entries).entries w)
          (resize [] 8192) ins).2.1
        (verify_loop L (intersect (registry have_cryptopp) R.entries)
          (init_all (intersect (registry have_cryptopp) R.entries).entries w)
          (resize [] 8192) ins).2.2 with h | h | h
      · exact Or.inl h
      · exact Or.inr (Or.inr (Or.inl h))
      · exact Or.inr (Or.inr (Or.inr h))

/-- C16. Registry membership: `fill_hashmap` applied to an empty map gives, for either
value of `HAVE_CRYPTOPP`, a non-empty map that holds "SIZE64" and "CUBE512"; its names
are exactly CUBE512 and SIZE64 without the flag, and RIPEMD128, TIGER192, SHA256,
SHA512, CUBE512, SIZE64 with it (listed here in key order); the result is a function
of the flag alone, and filling the filled map again changes nothing. -/
theorem C16_registry_membership (have_cryptopp : Bool) :
    (fill_hashmap have_cryptopp smap.empty).isEmpty = false ∧
    (fill_hashmap have_cryptopp smap.empty).find? "SIZE64" = some procid.sh ∧
    (fill_hashmap have_cryptopp smap.empty).find? "CUBE512" = some procid.c512 ∧
    (fill_hashmap have_cryptopp smap.empty).keys
      = (if have_cryptopp then
          ["CUBE512", "RIPEMD128", "SHA256", "SHA512", "SIZE64", "TIGER192"]
        else ["CUBE512", "SIZE64"]) ∧
    (fill_hashmap have_cryptopp (fill_hashmap have_cryptopp smap.empty)).keys
      = (fill_hashmap have_cryptopp smap.empty).keys := by
  cases have_cryptopp <;> decide

/-- C17. Chunking feeds each byte exactly once: for a stream read cleanly to its end,
the calls `create` makes on each processor of the registry, and the calls `verify`
makes on each processor of its working set, are `init`, then `eat` of each chunk of
`chunks S` in order, then `finish`.  The chunks of `chunks S` concatenate to the bytes
of the stream; they are the full chunks followed by one last chunk; every full chunk has
exactly 8192 bytes and the last has `|S| mod 8192` bytes, fewer than 8192 (none when
`|S|` is a multiple of 8192).  So the last chunk is eaten once, and all processors see
the same sequence before they are finished. -/
theorem C17_chunking (L : hashlib) (have_cryptopp : Bool) (prior R : hashes_t)
    (w : statics L) (ins : istream) (hc : ins.clean = true) :
    (chunks ins.content).flatten = ins.content ∧
    chunks ins.content = full_chunks ins.content ++ [last_chunk ins.content] ∧
    (∀ c ∈ full_chunks ins.content, c.length = 8192) ∧
    (last_chunk ins.content).length = ins.content.length % 8192 ∧
    (last_chunk ins.content).length < 8192 ∧
    (∀ p, p ∈ ptrsOf (registry have_cryptopp).entries →
      calls_on p (new_calls w.calls (create L have_cryptopp prior w ins).procs.calls)
        = call.init :: ((chunks ins.content).map call.eat
            ++ [call.finish (dig w ins.content p)])) ∧
    (∀ p, p ∈ ptrsOf (intersect (registry have_cryptopp) R.entries).entries →
      calls_on p (new_calls w.calls (verify L have_cryptopp R w ins).procs.calls)
        = call.init :: ((chunks ins.content).map call.eat
            ++ [call.finish (dig w ins.content p)])) := by
  have hl := last_chunk_length ins.content.length ins.content rfl
  refine ⟨chunks_flatten _ _ rfl, rfl, full_chunks_length _ _ rfl, hl, ?_, ?_, ?_⟩
  · rw [hl]
    exact Nat.mod_lt _ (by norm_num)
  · intro p hp
    exact create_calls_on L have_cryptopp prior w ins hc p hp
  · intro p hp
    exact verify_calls_on L have_cryptopp R w ins hc p hp

/-- C17 at the bytes `01 02 03`: the SIZE64 processor sees `init`, one `eat` of the three
bytes, and `finish`. -/
theorem C17_chunking_witness :
    demo_in.clean = true ∧
    calls_on procid.sh (new_calls demo_statics.calls
        (create demo_lib false smap.empty demo_statics demo_in).procs.calls)
      = [call.init, call.eat [1, 2, 3], call.finish [3, 0, 0, 0, 0, 0, 0, 0]] :=
  ⟨rfl, by
    rw [(C17_chunking demo_lib false smap.empty smap.empty demo_statics demo_in rfl).2.2.2.2.2.1
      procid.sh (by decide)]
    have e : dig demo_statics demo_in.content procid.sh
        = size64proc.digest (demo_statics.st procid.sh) demo_in.content := rfl
    rw [e, size64_digest, chunks_short demo_in.content (by decide)]
    decide⟩

/-- C18. The closing `return 2` of `verify` is unreachable.  For every record and
stream: `verify` returns 2 exactly when no name of the record is supported, and then it
has left through the early exit (stream and processors untouched, only the notice
written).  Whenever it returns 0 or 3 (it has been through the comparison loop), every
name of the record that the registry supports is found in the working set, the working
set has at least one entry, `ok + failed` is its size, and `finish` has been called
exactly once on each of its processors.  For a stream read cleanly to its end and a
record with a supported name the result is 0 or 3. -/
theorem C18_return_2_only_early (L : hashlib) (have_cryptopp : Bool) (R : hashes_t)
    (w : statics L) (ins : istream) :
    ((verify L have_cryptopp R w ins).ret = 2 ↔
      ∀ n ∈ R.keys, (registry have_cryptopp).find? n = none) ∧
    ((verify L have_cryptopp R w ins).ret = 2 →
      (verify L have_cryptopp R w ins).procs = w ∧
      (verify L have_cryptopp R w ins).ins = ins ∧
      (verify L have_cryptopp R w ins).log = [notice_line]) ∧
    (((verify L have_cryptopp R w ins).ret = 0 ∨ (verify L have_cryptopp R w ins).ret = 3) →
      (∀ n ∈ R.keys, ∀ p, (registry have_cryptopp).find? n = some p →
        (intersect (registry have_cryptopp) R.entries).find? n = some p) ∧
      1 ≤ (intersect (registry have_cryptopp) R.entries).size ∧
      (verify L have_cryptopp R w ins).ok + (verify L have_cryptopp R w ins).failed
        = (intersect (registry have_cryptopp) R.entries).size ∧
      ∀ p ∈ ptrsOf (intersect (registry have_cryptopp) R.entries).entries,
        finish_count p
          (new_calls w.calls (verify L have_cryptopp R w ins).procs.calls) = 1) ∧
    (ins.clean = true →
      (∃ n ∈ R.keys, ∃ p, (registry have_cryptopp).find? n = some p) →
      (verify L have_cryptopp R w ins).ret = 0 ∨ (verify L have_cryptopp R w ins).ret = 3) := by
  have hfound : ∀ n ∈ R.keys, ∀ p, (registry have_cryptopp).find? n = some p →
      (intersect (registry have_cryptopp) R.entries).find? n = some p :=
    fun n hn p hp => (intersect_find_iff _ _ n p).2 ⟨hn, hp⟩
  have hclean : ins.clean = true →
      (∃ n ∈ R.keys, ∃ p, (registry have_cryptopp).find? n = some p) →
      (verify L have_cryptopp R w ins).ret = 0 ∨ (verify L have_cryptopp R w ins).ret = 3 := by
    intro hc hex
    have hne := (intersect_isEmpty_false_iff _ _).2 hex
    have hl : (verify_loop L (intersect (registry have_cryptopp) R.entries)
        (init_all (intersect (registry have_cryptopp) R.entries).entries w)
        (resize [] 8192) ins).1 = true := by
      rw [verify_loop_clean L _ ins.content.length ins _ _ rfl hc (resize_nil_length 8192)]
    exact (verify_phase_facts L have_cryptopp R w ins hne hl).2.2.1
  by_cases he : (intersect (registry have_cryptopp) R.entries).isEmpty = true
  · have hv := verify_empty L have_cryptopp R w ins he
    have hall := unsupported_of_isEmpty _ R he
    refine ⟨⟨fun _ => hall, fun _ => by rw [hv]⟩, fun _ => by rw [hv]; exact ⟨rfl, rfl, rfl⟩,
      fun h => ?_, hclean⟩
    rw [hv] at h
    rcases h with h | h <;> simp at h
  · have hne : (intersect (registry have_cryptopp) R.entries).isEmpty = false := by
      simpa using he
    have hnot : ¬ ∀ n ∈ R.keys, (registry have_cryptopp).find? n = none :=
      fun hall => he (intersect_isEmpty_of_unsupported _ R hall)
    by_cases hl : (verify_loop L (intersect (registry have_cryptopp) R.entries)
        (init_all (intersect (registry have_cryptopp) R.entries).entries w)
        (resize [] 8192) ins).1 = false
    · have hret : (verify L have_cryptopp R w ins).ret = 1 := by
        rw [verify_eq, if_neg he, if_pos hl]
      refine ⟨⟨fun h => ?_, fun h => absurd h hnot⟩, fun h => ?_, fun h => ?_, hclean⟩
      · rw [hret] at h
        exact absurd h (by decide)
      · rw [hret] at h
        exact absurd h (by decide)
      · rw [hret] at h
        rcases h with h | h <;> exact absurd h (by decide)
    · have hl2 : (verify_loop L (intersect (registry have_cryptopp) R.entries)
          (init_all (intersect (registry have_cryptopp) R.entries).entries w)
          (resize [] 8192) ins).1 = true := by
        simpa using hl
      obtain ⟨hsum, hsize, hret, hfin⟩ := verify_phase_facts L have_cryptopp R w ins hne hl2
      have hne2 : (verify L have_cryptopp R w ins).ret ≠ 2 := by
        rcases hret with h | h <;> rw [h] <;> decide
      exact ⟨⟨fun h => absurd h hne2, fun h => absurd h hnot⟩, fun h => absurd h hne2,
        fun _ => ⟨hfound, hsize, hsum, hfin⟩, hclean⟩

/-- C18 at a record with a matching SIZE64 entry and an unsupported name, on the bytes
`01 02 03`: the result is 0 or 3, not 2. -/
theorem C18_return_2_only_early_witness :
    demo_in.clean = true ∧
    (∃ n ∈ demo_record.keys, ∃ p, (registry false).find? n = some p) ∧
    ((verify demo_lib false demo_record demo_statics demo_in).ret = 0 ∨
      (verify demo_lib false demo_record demo_statics demo_in).ret = 3) :=
  have hex : ∃ n ∈ demo_record.keys, ∃ p, (registry false).find? n = some p :=
    ⟨"SIZE64", by decide, procid.sh, by decide⟩
  ⟨rfl, hex,
    (C18_return_2_only_early demo_lib false demo_record demo_statics demo_in).2.2.2 rfl hex⟩

/-- C19. `size64proc::finish` is destructive: for every value `s` of the `uint64_t`
counter, `finish` returns the 8 bytes of `s`, least significant first (byte `i` is
`s / 256 ^ i mod 256`), and leaves the counter at 0; a second `finish` right after
returns 8 zero bytes, which is the first result only if `s` is 0; and after `init()` and
`eat` of the chunks `c1 .. ck` the counter is `(|c1| + ... + |ck|) mod 2 ^ 64`. -/
theorem C19_size64_finish_destructive (s : Nat) (hs : s < 2 ^ 64) :
    (size64proc.finish s).1 = (List.range 8).map (fun i => s / 256 ^ i % 256) ∧
    (size64proc.finish s).2 = 0 ∧
    (size64proc.finish (size64proc.finish s).2).1 = [0, 0, 0, 0, 0, 0, 0, 0] ∧
    (size64proc.finish (size64proc.finish s).2).2 = 0 ∧
    ((size64proc.finish (size64proc.finish s).2).1 = (size64proc.finish s).1 ↔ s = 0) ∧
    (∀ (s0 : Nat) (cs : List (List Nat)),
      size64proc.feed (size64proc.init s0) cs = (cs.map List.length).sum % 2 ^ 64) := by
  have h1 : size64proc.finish s = (le64 s, 0) := by
    rw [size64_finish]
    have : s / 256 ^ 8 = 0 := Nat.div_eq_of_lt (by norm_num at hs ⊢; exact hs)
    rw [this]
  have h0 : size64proc.finish 0 = (le64 0, 0) := by
    rw [size64_finish, Nat.zero_div]
  have hz : le64 0 = [0, 0, 0, 0, 0, 0, 0, 0] := by decide
  refine ⟨?_, ?_, ?_, ?_, ?_, ?_⟩
  · rw [h1]
    rfl
  · rw [h1]
  · rw [h1, h0, hz]
  · rw [h1, h0]
  · rw [h1, h0]
    constructor
    · intro h
      exact (le64_inj 0 s (by norm_num) hs h).symm
    · intro h
      rw [h]
  · intro s0 cs
    have hlt : size64proc.feed (size64proc.init s0) cs < 2 ^ 64 :=
      size64_feed_lt cs 0 (by norm_num)
    have hmod := size64_feed cs 0
    have hinit : size64proc.init s0 = 0 := rfl
    rw [hinit] at hlt ⊢
    rw [Nat.mod_eq_of_lt hlt, Nat.zero_add] at hmod
    exact hmod

/-- C19 at the counter value 3: the first `finish` returns `03 00 00 00 00 00 00 00`, the
second 8 zero bytes. -/
theorem C19_size64_finish_destructive_witness :
    3 < 2 ^ 64 ∧
    (size64proc.finish 3).1 = [3, 0, 0, 0, 0, 0, 0, 0] ∧
    (size64proc.finish (size64proc.finish 3).2).1 = [0, 0, 0, 0, 0, 0, 0, 0] :=
  have h := C19_size64_finish_destructive 3 (by norm_num)
  ⟨by norm_num, h.1.trans (by decide), h.2.2.1⟩

end Codecrypt
